import Mathlib

/-!
# Verification of the BTF type-description codec and the fixed-layout codec

The repository ships the tests of a binary type-description codec (package
`btf`: `Builder`, `Marshal`, `loadRawSpec`, `postorderTraversal`) and of a
fixed-layout value codec (package `sysenc`: `Marshal`, `unsafeBackingMemory`).
The implementations themselves are not part of the sample, so every operation
below is modelled from the specification document, constrained to agree with
the concrete behaviour the test files pin down.

Cyclic type graphs are represented as an arena (a list of nodes addressed by
index), following the specification's design note: "represent Types in an
arena ... addressed by integer TypeID rather than direct reference cycles".
A Go `Type` value corresponds to an arena index; Go pointer identity
corresponds to index equality.  Names are modelled as byte strings
(`List Nat`), matching the null-terminated byte strings of the wire format.
-/

namespace BtfModel

/-- A name is a byte string (the wire format stores null-terminated bytes). -/
abbrev BName := List Nat

/-- Modelled from the spec: a Struct/Union member, "each Member = \x7bname,
offset, owned Type\x7d".  The owned type is an arena index. -/
structure BtfMember where
  mname : BName
  mtyp : Nat
  moffset : Nat
deriving DecidableEq

/-- Modelled from the spec: the closed set of type variants of the Type Model
(§3).  Child types are arena indices, so shared ownership and cycles are
representable. -/
inductive TNode where
  | void : TNode
  | int (name : BName) (size : Nat) (encoding : Nat) : TNode
  | ptr (target : Nat) : TNode
  | arr (elem : Nat) (count : Nat) : TNode
  | struct (name : BName) (size : Nat) (members : List BtfMember) : TNode
  | union (name : BName) (size : Nat) (members : List BtfMember) : TNode
  | enum (name : BName) (size : Nat) (signed : Bool)
      (values : List (BName × Nat)) : TNode
  | typedef (name : BName) (target : Nat) : TNode
  | fwd (name : BName) (isUnion : Bool) : TNode
deriving DecidableEq

/-- A type graph: the arena of nodes.  Out-of-range indices read as `void`,
which mirrors the fact that a Go `Type` reference always points at an actual
value (there is no out-of-range reference in the source language). -/
abbrev TypeGraph := List TNode

def getNode (g : TypeGraph) (n : Nat) : TNode := g.getD n .void

def voidKind (g : TypeGraph) (n : Nat) : Bool :=
  match getNode g n with
  | .void => true
  | _ => false

/-- The owned child references of a node (pointee, element type, member
types, typedef target).  Enums, fwd declarations, ints and void own no
children. -/
def childRefs : TNode → List Nat
  | .void => []
  | .int _ _ _ => []
  | .ptr t => [t]
  | .arr e _ => [e]
  | .struct _ _ ms => ms.map BtfMember.mtyp
  | .union _ _ ms => ms.map BtfMember.mtyp
  | .enum _ _ _ _ => []
  | .typedef _ t => [t]
  | .fwd _ _ => []

/-! ## Builder

Modelled from the spec (§3, §4.2): the Builder "owns an ordered sequence of
Types (index position + 1 = assigned TypeID, except Void) and a deduplication
index mapping each distinct Type identity already added to its TypeID".  In
the arena embedding a Type identity is an arena index, and the deduplication
index is determined by the ordered sequence itself (a node's TypeID is its
position + 1), which is exactly the invariant the Go map maintains. -/

structure Builder where
  types : List Nat
deriving DecidableEq

def emptyBuilder : Builder := ⟨[]⟩

/-- The TypeID assigned so far to node `n`, if any.  Void always has ID 0. -/
def Builder.idOf (g : TypeGraph) (b : Builder) (n : Nat) : Option Nat :=
  if voidKind g n then some 0
  else if b.types.contains n then some (b.types.indexOf n + 1)
  else none

/-- Modelled from the spec (§4.2) and pinned by `TestBuilderAdd`:
`add(type) -> TypeID`.  Void maps to the reserved ID 0; a previously added
identity returns its existing ID; otherwise the node itself is appended and
receives the next ID.  (`TestBuilderAdd` pins that adding `&Pointer\x7bi\x7d` to a
fresh Builder returns ID 1 and that `i` only receives ID 2 when it is added
afterwards, so `add` does not descend into children.) -/
def addType (g : TypeGraph) (b : Builder) (n : Nat) : Nat × Builder :=
  if voidKind g n then (0, b)
  else if b.types.contains n then (b.types.indexOf n + 1, b)
  else (b.types.length + 1, ⟨b.types ++ [n]⟩)

/-- Helper loop of the bulk constructor: add each node in turn and check that
it received the expected ID (which fails when the same identity occurs at two
positions, or when a later entry is a Void). -/
def newBuilderLoop (g : TypeGraph) : List Nat → Nat → Builder → Option Builder
  | [], _, b => some b
  | n :: rest, i, b =>
    let p := addType g b n
    if p.1 = i then newBuilderLoop g rest (i + 1) p.2 else none

/-- Modelled from the spec (§4.2), corrected by the `TestMarshalEnum64` pin
(`NewBuilder([]Type{enum})` succeeds, tools.go:529-530): construction from a
full ordered sequence of Types.  A leading Void is optional — it stands for
the implicit ID 0 and is skipped; the remaining Types receive IDs 1.. in
input order, failing when an entry does not receive the ID equal to its
position. -/
def newBuilder (g : TypeGraph) (ns : List Nat) : Option Builder :=
  match ns with
  | [] => some emptyBuilder
  | n0 :: rest =>
    if voidKind g n0 then newBuilderLoop g rest 1 emptyBuilder
    else newBuilderLoop g (n0 :: rest) 1 emptyBuilder

/-- Adding a whole list of types in sequence, collecting the returned IDs. -/
def addList (g : TypeGraph) (b : Builder) : List Nat → List Nat × Builder
  | [] => ([], b)
  | n :: ns =>
    let p := addType g b n
    let q := addList g p.2 ns
    (p.1 :: q.1, q.2)

/-! ### Basic lemmas about `addType` -/

theorem addType_of_fresh {g : TypeGraph} {b : Builder} {n : Nat}
    (hv : voidKind g n = false) (hm : n ∉ b.types) :
    addType g b n = (b.types.length + 1, ⟨b.types ++ [n]⟩) := by
  simp [addType, hv, hm]

theorem addType_of_mem {g : TypeGraph} {b : Builder} {n : Nat}
    (hv : voidKind g n = false) (hm : n ∈ b.types) :
    addType g b n = (b.types.indexOf n + 1, b) := by
  simp [addType, hv, hm]

theorem addType_void {g : TypeGraph} {b : Builder} {n : Nat}
    (hv : voidKind g n = true) : addType g b n = (0, b) := by
  simp [addType, hv]

/-- `addList` with a list of pairwise distinct, fresh, non-void nodes appends
them all and hands out the next IDs in order. -/
theorem addList_fresh {g : TypeGraph} :
    ∀ {ns : List Nat} {b : Builder}, ns.Nodup →
    (∀ n ∈ ns, voidKind g n = false) → (∀ n ∈ ns, n ∉ b.types) →
    addList g b ns = (List.range' (b.types.length + 1) ns.length, ⟨b.types ++ ns⟩) := by
  intro ns
  induction ns with
  | nil => intro b _ _ _; simp [addList]
  | cons n ns ih =>
    intro b hnd hv hf
    have hv0 : voidKind g n = false := hv n (by simp)
    have hf0 : n ∉ b.types := hf n (by simp)
    have step := addType_of_fresh hv0 hf0
    have tail := @ih ⟨b.types ++ [n]⟩ (List.Nodup.of_cons hnd)
      (fun m hm => hv m (List.mem_cons_of_mem _ hm))
      (fun m hm => by
        simp only [List.mem_append, List.mem_singleton]
        rintro (h | h)
        · exact hf m (List.mem_cons_of_mem _ hm) h
        · exact (List.nodup_cons.mp hnd).1 (h ▸ hm))
    have hlen : (b.types ++ [n]).length = b.types.length + 1 := by simp
    simp only [addList, step, tail, hlen, List.length_cons]
    rw [List.range'_succ]
    simp [List.append_assoc]

/-! ### The bulk constructor -/

/-- The constructor loop succeeds on fresh, non-void, duplicate-free input and
appends it wholesale. -/
theorem newBuilderLoop_ok {g : TypeGraph} :
    ∀ {rest : List Nat} {b : Builder},
    (∀ n ∈ rest, voidKind g n = false) → (b.types ++ rest).Nodup →
    newBuilderLoop g rest (b.types.length + 1) b = some ⟨b.types ++ rest⟩ := by
  intro rest
  induction rest with
  | nil => intro b _ _; simp [newBuilderLoop]
  | cons n rest ih =>
    intro b hv hnd
    have hv0 : voidKind g n = false := hv n (by simp)
    have hdis := (List.nodup_append.mp hnd).2.2
    have hf0 : n ∉ b.types := fun hmem => hdis hmem (by simp)
    have step := addType_of_fresh hv0 hf0
    have hnd2 : ((⟨b.types ++ [n]⟩ : Builder).types ++ rest).Nodup := by
      simpa [List.append_assoc] using hnd
    have tail := @ih ⟨b.types ++ [n]⟩
      (fun m hm => hv m (List.mem_cons_of_mem _ hm)) hnd2
    simp only [newBuilderLoop, step, if_pos rfl]
    have hlen : (b.types ++ [n]).length = b.types.length + 1 := by simp
    rw [show b.types.length + 1 + 1 = (⟨b.types ++ [n]⟩ : Builder).types.length + 1 by
      simp, tail]
    simp [List.append_assoc]

/-- The constructor loop rejects input in which the same identity occurs at
two positions (relative to what has been added already). -/
theorem newBuilderLoop_dup {g : TypeGraph} :
    ∀ {rest : List Nat} {b : Builder}, b.types.Nodup →
    (∀ n ∈ rest, voidKind g n = false) → ¬ (b.types ++ rest).Nodup →
    newBuilderLoop g rest (b.types.length + 1) b = none := by
  intro rest
  induction rest with
  | nil => intro b hb _ hnd; exact absurd (by simpa using hb) hnd
  | cons n rest ih =>
    intro b hb hv hnd
    have hv0 : voidKind g n = false := hv n (by simp)
    by_cases hf0 : n ∈ b.types
    · have step := addType_of_mem hv0 hf0
      have hlt : b.types.indexOf n < b.types.length := List.indexOf_lt_length.mpr hf0
      simp only [newBuilderLoop, step]
      rw [if_neg (by omega)]
    · have step := addType_of_fresh hv0 hf0
      have hb2 : (⟨b.types ++ [n]⟩ : Builder).types.Nodup := by
        show (b.types ++ [n]).Nodup
        rw [List.nodup_append]
        exact ⟨hb, List.nodup_singleton n, fun x hx hxn => by
          simp only [List.mem_singleton] at hxn
          exact hf0 (hxn ▸ hx)⟩
      have hnd2 : ¬ ((⟨b.types ++ [n]⟩ : Builder).types ++ rest).Nodup := by
        simpa [List.append_assoc] using hnd
      have tail := @ih ⟨b.types ++ [n]⟩ hb2
        (fun m hm => hv m (List.mem_cons_of_mem _ hm)) hnd2
      have hlen2 : b.types.length + 1 + 1 = (⟨b.types ++ [n]⟩ : Builder).types.length + 1 := by
        simp
      simp only [newBuilderLoop, step]
      rw [if_pos trivial, hlen2, tail]

/-- C7 (amended): the bulk Builder constructor, given a full ordered sequence
of duplicate-free Types, assigns IDs 1..N in input order; a leading Void is
optional — it stands for the implicit ID 0 and is skipped, and a sequence led
by a non-Void Type is accepted just the same (as `TestMarshalEnum64` pins);
construction fails when the same identity appears at two different
positions. -/
theorem C7_newBuilder_assigns_sequential_ids (g : TypeGraph) :
    (∀ ns : List Nat, (∀ n ∈ ns, voidKind g n = false) → ns.Nodup →
      newBuilder g ns = some ⟨ns⟩ ∧
      ∀ i (h : i < ns.length),
        Builder.idOf g ⟨ns⟩ (ns.get ⟨i, h⟩) = some (i + 1)) ∧
    (∀ (n0 : Nat) (rest : List Nat), voidKind g n0 = true →
      (∀ n ∈ rest, voidKind g n = false) →
      newBuilder g (n0 :: rest) = newBuilder g rest) ∧
    (∀ ns : List Nat, (∀ n ∈ ns, voidKind g n = false) → ¬ ns.Nodup →
      newBuilder g ns = none) ∧
    (∀ (n0 : Nat) (rest : List Nat), voidKind g n0 = true →
      (∀ n ∈ rest, voidKind g n = false) → ¬ rest.Nodup →
      newBuilder g (n0 :: rest) = none) := by
  have hskip : ∀ (n0 : Nat) (rest : List Nat), voidKind g n0 = true →
      (∀ n ∈ rest, voidKind g n = false) →
      newBuilder g (n0 :: rest) = newBuilder g rest := by
    intro n0 rest h0 hv
    cases rest with
    | nil => simp [newBuilder, h0, newBuilderLoop, emptyBuilder]
    | cons r rs =>
      have hr : voidKind g r = false := hv r (by simp)
      simp [newBuilder, h0, hr]
  have hok : ∀ ns : List Nat, (∀ n ∈ ns, voidKind g n = false) → ns.Nodup →
      newBuilder g ns = some ⟨ns⟩ ∧
      ∀ i (h : i < ns.length),
        Builder.idOf g ⟨ns⟩ (ns.get ⟨i, h⟩) = some (i + 1) := by
    intro ns hv hnd
    constructor
    · cases ns with
      | nil => rfl
      | cons n0 rest =>
        have hv0 : voidKind g n0 = false := hv n0 (by simp)
        have := @newBuilderLoop_ok g (n0 :: rest) emptyBuilder hv
          (by simpa [emptyBuilder] using hnd)
        simpa [newBuilder, hv0, emptyBuilder] using this
    · intro i h
      have hmem : ns[i] ∈ ns := List.get_mem ns i h
      have hvk : voidKind g ns[i] = false := hv _ hmem
      have hidx : ns.indexOf ns[i] = i := List.indexOf_getElem hnd i h
      show Builder.idOf g ⟨ns⟩ ns[i] = some (i + 1)
      simp [Builder.idOf, hvk, hmem, hidx]
  have hdup : ∀ ns : List Nat, (∀ n ∈ ns, voidKind g n = false) → ¬ ns.Nodup →
      newBuilder g ns = none := by
    intro ns hv hnd
    cases ns with
    | nil => exact absurd List.nodup_nil hnd
    | cons n0 rest =>
      have hv0 : voidKind g n0 = false := hv n0 (by simp)
      have := @newBuilderLoop_dup g (n0 :: rest) emptyBuilder
        (by simp [emptyBuilder]) hv (by simpa [emptyBuilder] using hnd)
      simpa [newBuilder, hv0, emptyBuilder] using this
  refine ⟨hok, hskip, hdup, ?_⟩
  intro n0 rest h0 hv hnd
  rw [hskip n0 rest h0 hv]
  exact hdup rest hv hnd

/-- C2: add is idempotent on the same identity, hands out strictly increasing
IDs `1, 2, ...` to successive distinct non-void types added to a fresh
Builder, returns the reserved ID 0 exactly for Void, and never appends Void
to the Builder sequence. -/
theorem C2_add_idempotent_increasing (g : TypeGraph) :
    (∀ b n, addType g (addType g b n).2 n = addType g b n) ∧
    (∀ ns, ns.Nodup → (∀ n ∈ ns, voidKind g n = false) →
      (addList g emptyBuilder ns).1 = List.range' 1 ns.length) ∧
    (∀ b n, (addType g b n).1 = 0 ↔ voidKind g n = true) ∧
    (∀ b n, voidKind g n = true → (addType g b n).2 = b) := by
  refine ⟨?_, ?_, ?_, ?_⟩
  · intro b n
    by_cases hv : voidKind g n = true
    · simp [addType_void hv]
    · replace hv : voidKind g n = false := by simpa using hv
      by_cases hm : n ∈ b.types
      · simp [addType_of_mem hv hm]
      · rw [addType_of_fresh hv hm]
        have hm2 : n ∈ (⟨b.types ++ [n]⟩ : Builder).types := by simp
        rw [addType_of_mem hv hm2, List.indexOf_append_of_not_mem hm]
        simp [addType_of_fresh hv hm, List.indexOf_cons_self]
  · intro ns hnd hv
    have := @addList_fresh g ns emptyBuilder hnd hv
      (fun n _ => by simp [emptyBuilder])
    have h2 := congrArg Prod.fst this
    simpa [emptyBuilder] using h2
  · intro b n
    by_cases hv : voidKind g n = true
    · simp [addType_void hv, hv]
    · replace hv : voidKind g n = false := by simpa using hv
      by_cases hm : n ∈ b.types
      · simp [addType_of_mem hv hm, hv]
      · simp [addType_of_fresh hv hm, hv]
  · intro b n hv; simp [addType_void hv]

/-! ### Concrete graphs used as witnesses

`gW` mirrors `TestBuilderMarshal`: node 0 is Void, node 1 the 2-byte signed
char Int named "foo", node 2 a pointer to it, node 3 a typedef "baz" of it.
`gC5` mirrors `TestBuilderAdd`: node 0 the Int, node 1 a pointer to it. -/

def fooName : BName := [102, 111, 111]

def bazName : BName := [98, 97, 122]

def gW : TypeGraph :=
  [.void, .int fooName 2 3, .ptr 1, .typedef bazName 1]

def gC5 : TypeGraph := [.int fooName 2 3, .ptr 0]

theorem C7_newBuilder_assigns_sequential_ids_witness :
    (newBuilder gW [1, 2, 3] = some ⟨[1, 2, 3]⟩ ∧
      Builder.idOf gW ⟨[1, 2, 3]⟩ 3 = some 3) ∧
    newBuilder gW (0 :: [1, 2, 3]) = newBuilder gW [1, 2, 3] := by
  have h := (C7_newBuilder_assigns_sequential_ids gW).1 [1, 2, 3]
    (by decide) (by decide)
  have h2 := (C7_newBuilder_assigns_sequential_ids gW).2.1 0 [1, 2, 3]
    (by decide) (by decide)
  refine ⟨⟨h.1, ?_⟩, h2⟩
  have := h.2 2 (by decide)
  simpa using this

theorem C2_add_idempotent_increasing_witness :
    (addList gC5 emptyBuilder [1, 0]).1 = [1, 2] := by
  have h := (C2_add_idempotent_increasing gC5).2.1 [1, 0] (by decide) (by decide)
  simpa using h

/-- C5 counterexample: adding the pointer node (arena index 1, whose single
owned child is the Int at arena index 0) to a fresh Builder does not hand any
TypeID to the child, and returns ID 1 for the root itself — so it is false
that every unseen owned child receives its own TypeID before the root. -/
theorem C5_children_first_cex :
    ¬ (∀ c ∈ childRefs (getNode gC5 1),
        ∃ k, Builder.idOf gC5 (addType gC5 emptyBuilder 1).2 c = some k ∧
          k < (addType gC5 emptyBuilder 1).1) := by decide

/-- C5 (amended): when add is called with a non-void Type not previously
added, it appends only that Type itself, assigns it the next TypeID and
returns it; its owned children are not added and receive no TypeID from add
(unseen children are only assigned IDs later, during marshaling). -/
theorem C5_add_appends_self_only (g : TypeGraph) (b : Builder) (n : Nat)
    (hv : voidKind g n = false) (hm : n ∉ b.types) :
    (addType g b n).1 = b.types.length + 1 ∧
    (addType g b n).2.types = b.types ++ [n] ∧
    ∀ c ∈ childRefs (getNode g n), c ≠ n → c ∉ b.types →
      voidKind g c = false → Builder.idOf g (addType g b n).2 c = none := by
  rw [addType_of_fresh hv hm]
  refine ⟨rfl, rfl, ?_⟩
  intro c _ hcn hcb hcv
  have : c ∉ b.types ++ [n] := by
    simp only [List.mem_append, List.mem_singleton]
    rintro (h | h)
    · exact hcb h
    · exact hcn h
  simp [Builder.idOf, hcv, this]

theorem C5_add_appends_self_only_witness :
    (addType gC5 emptyBuilder 1).1 = 1 ∧
    Builder.idOf gC5 (addType gC5 emptyBuilder 1).2 0 = none := by
  have h := C5_add_appends_self_only gC5 emptyBuilder 1 (by decide) (by decide)
  exact ⟨by simpa [emptyBuilder] using h.1,
    h.2.2 0 (by decide) (by decide) (by decide) (by decide)⟩

/-! ## Postorder traversal

Modelled from the spec (§4.1): "A postorder traversal visits a root Type's
owned children before the Type itself, guarded by a caller-supplied already
seen predicate; the traversal must terminate on arbitrarily cyclic graphs by
never re-descending into a Type already marked visited, and must allow
incremental accumulation of a seen set across multiple traversal
invocations.  Edge case: Void has no children and is always considered
visited."

A node is marked in the seen set before its children are walked (this is
what cuts cycles) but is emitted after them.  The `fuel` argument bounds the
depth of the descent; since every descent step marks one previously unseen
in-range node, fuel `g.length + 1` is always enough, which is proved below
(`C6_postorder_terminates`). -/

def poN (g : TypeGraph) : Nat → Finset Nat → Nat → List Nat × Finset Nat
  | 0, seen, _ => ([], seen)
  | fuel + 1, seen, n =>
    if n ∈ seen ∨ voidKind g n then ([], seen)
    else
      let p := (childRefs (getNode g n)).foldl
        (fun (acc : List Nat × Finset Nat) c =>
          let q := poN g fuel acc.2 c
          (acc.1 ++ q.1, q.2)) ([], insert n seen)
      (p.1 ++ [n], p.2)

/-- Walking a list of children in sequence, threading the seen set. -/
def poL (g : TypeGraph) (fuel : Nat) : Finset Nat → List Nat → List Nat × Finset Nat
  | seen, [] => ([], seen)
  | seen, c :: cs =>
    let p := poN g fuel seen c
    let q := poL g fuel p.2 cs
    (p.1 ++ q.1, q.2)

/-- The canonical traversal runs with always-sufficient fuel. -/
def postorderTraversal (g : TypeGraph) (seen : Finset Nat) (n : Nat) :
    List Nat × Finset Nat :=
  poN g (g.length + 1) seen n

theorem voidKind_of_ge {g : TypeGraph} {n : Nat} (h : g.length ≤ n) :
    voidKind g n = true := by
  have hnone : g[n]? = none := List.getElem?_eq_none h
  simp [voidKind, getNode, List.getD, hnone]

theorem lt_length_of_not_voidKind {g : TypeGraph} {n : Nat}
    (h : voidKind g n = false) : n < g.length := by
  by_contra hc
  rw [voidKind_of_ge (by omega)] at h
  exact Bool.noConfusion h

theorem poN_zero (g : TypeGraph) (seen : Finset Nat) (n : Nat) :
    poN g 0 seen n = ([], seen) := rfl

theorem poL_nil (g : TypeGraph) (fuel : Nat) (seen : Finset Nat) :
    poL g fuel seen [] = ([], seen) := rfl

theorem poL_cons (g : TypeGraph) (fuel : Nat) (seen : Finset Nat) (c : Nat)
    (cs : List Nat) :
    poL g fuel seen (c :: cs) =
      ((poN g fuel seen c).1 ++ (poL g fuel (poN g fuel seen c).2 cs).1,
        (poL g fuel (poN g fuel seen c).2 cs).2) := rfl

/-- The child fold inside `poN` is `poL` with an accumulated prefix. -/
theorem poL_foldl (g : TypeGraph) (fuel : Nat) :
    ∀ (cs : List Nat) (seen : Finset Nat) (a : List Nat),
      cs.foldl (fun (acc : List Nat × Finset Nat) c =>
        let q := poN g fuel acc.2 c
        (acc.1 ++ q.1, q.2)) (a, seen) =
      (a ++ (poL g fuel seen cs).1, (poL g fuel seen cs).2) := by
  intro cs
  induction cs with
  | nil => intro seen a; simp [poL]
  | cons c cs ih =>
    intro seen a
    simp only [List.foldl_cons, poL_cons]
    rw [ih]
    simp [List.append_assoc]

theorem poN_succ (g : TypeGraph) (fuel : Nat) (seen : Finset Nat) (n : Nat) :
    poN g (fuel + 1) seen n =
      if n ∈ seen ∨ voidKind g n then ([], seen)
      else
        ((poL g fuel (insert n seen) (childRefs (getNode g n))).1 ++ [n],
          (poL g fuel (insert n seen) (childRefs (getNode g n))).2) := by
  by_cases h : n ∈ seen ∨ voidKind g n
  · rw [if_pos h]
    show (if n ∈ seen ∨ voidKind g n then _ else _) = _
    rw [if_pos h]
  · rw [if_neg h]
    show (if n ∈ seen ∨ voidKind g n then _ else _) = _
    rw [if_neg h]
    simp only [poL_foldl]
    simp

/-- The traversal only ever grows the seen set. -/
theorem po_seen_subset (g : TypeGraph) :
    ∀ fuel, (∀ seen n, seen ⊆ (poN g fuel seen n).2) ∧
      (∀ seen cs, seen ⊆ (poL g fuel seen cs).2) := by
  intro fuel
  induction fuel with
  | zero =>
    constructor
    · intro seen n; rw [poN_zero]
    · intro seen cs
      induction cs generalizing seen with
      | nil => rw [poL_nil]
      | cons c cs ih =>
        rw [poL_cons]
        exact fun x hx => ih (poN g 0 seen c).2 (by rw [poN_zero] at *; exact hx)
  | succ fuel ihf =>
    have hn : ∀ seen n, seen ⊆ (poN g (fuel + 1) seen n).2 := by
      intro seen n
      rw [poN_succ]
      by_cases h : n ∈ seen ∨ voidKind g n
      · rw [if_pos h]
      · rw [if_neg h]
        intro x hx
        exact ihf.2 (insert n seen) (childRefs (getNode g n))
          (Finset.mem_insert_of_mem hx)
    refine ⟨hn, ?_⟩
    intro seen cs
    induction cs generalizing seen with
    | nil => rw [poL_nil]
    | cons c cs ih =>
      rw [poL_cons]
      exact fun x hx => ih (poN g (fuel + 1) seen c).2 (hn seen c hx)

/-- The output of a traversal is duplicate-free, disjoint from the incoming
seen set, and the outgoing seen set is exactly the incoming one plus the
output: the seen set accumulates the visit history. -/
theorem po_output_spec (g : TypeGraph) :
    ∀ fuel,
      (∀ seen n, (poN g fuel seen n).2 = seen ∪ (poN g fuel seen n).1.toFinset ∧
        (poN g fuel seen n).1.Nodup ∧ ∀ x ∈ (poN g fuel seen n).1, x ∉ seen) ∧
      (∀ seen cs, (poL g fuel seen cs).2 = seen ∪ (poL g fuel seen cs).1.toFinset ∧
        (poL g fuel seen cs).1.Nodup ∧ ∀ x ∈ (poL g fuel seen cs).1, x ∉ seen) := by
  intro fuel
  induction fuel with
  | zero =>
    constructor
    · intro seen n; rw [poN_zero]; simp
    · intro seen cs
      induction cs generalizing seen with
      | nil => rw [poL_nil]; simp
      | cons c cs ih =>
        rw [poL_cons, poN_zero]
        simpa using ih seen
  | succ fuel ihf =>
    have hn : ∀ seen n,
        (poN g (fuel + 1) seen n).2 = seen ∪ (poN g (fuel + 1) seen n).1.toFinset ∧
        (poN g (fuel + 1) seen n).1.Nodup ∧
        ∀ x ∈ (poN g (fuel + 1) seen n).1, x ∉ seen := by
      intro seen n
      rw [poN_succ]
      by_cases h : n ∈ seen ∨ voidKind g n
      · rw [if_pos h]; simp
      · rw [if_neg h]
        push_neg at h
        obtain ⟨hns, _⟩ := h
        obtain ⟨hset, hnd, hdis⟩ := ihf.2 (insert n seen) (childRefs (getNode g n))
        set p := poL g fuel (insert n seen) (childRefs (getNode g n)) with hp
        refine ⟨?_, ?_, ?_⟩
        · rw [hset]
          ext x
          simp only [Finset.mem_union, Finset.mem_insert, List.toFinset_append,
            List.mem_toFinset, List.mem_append, List.mem_singleton,
            List.toFinset_cons, List.toFinset_nil]
          constructor
          · rintro ((h | h) | h)
            · exact Or.inr (Or.inr (by simp [h]))
            · exact Or.inl h
            · exact Or.inr (Or.inl (by simpa using h))
          · rintro (h | h)
            · exact Or.inl (Or.inr h)
            · rcases (by simpa using h : x ∈ p.1 ∨ x = n) with h | h
              · exact Or.inr h
              · exact Or.inl (Or.inl h)
        · rw [List.nodup_append]
          refine ⟨hnd, List.nodup_singleton n, fun x hx hxn => ?_⟩
          simp only [List.mem_singleton] at hxn
          exact hdis x hx (hxn ▸ Finset.mem_insert_self n seen)
        · intro x hx
          rcases List.mem_append.mp hx with h | h
          · exact fun hseen => hdis x h (Finset.mem_insert_of_mem hseen)
          · simp only [List.mem_singleton] at h
            exact h ▸ hns
    refine ⟨hn, ?_⟩
    intro seen cs
    induction cs generalizing seen with
    | nil => rw [poL_nil]; simp
    | cons c cs ih =>
      rw [poL_cons]
      obtain ⟨hset1, hnd1, hdis1⟩ := hn seen c
      set p := poN g (fuel + 1) seen c with hp
      obtain ⟨hset2, hnd2, hdis2⟩ := ih p.2
      refine ⟨?_, ?_, ?_⟩
      · rw [hset2, hset1]
        ext x
        simp only [Finset.mem_union, List.toFinset_append, List.mem_toFinset,
          List.mem_append]
        tauto
      · rw [List.nodup_append]
        refine ⟨hnd1, hnd2, fun x hx hx2 => ?_⟩
        have : x ∈ p.2 := by rw [hset1]; exact Finset.mem_union_right _ (by simpa using hx)
        exact hdis2 x hx2 this
      · intro x hx
        rcases List.mem_append.mp hx with h | h
        · exact hdis1 x h
        · intro hseen
          have : x ∈ p.2 := po_seen_subset g (fuel + 1) |>.1 seen c hseen
          exact hdis2 x h this

/-- One fuel step does not change the result once the fuel dominates the
number of unvisited in-range nodes: the traversal has converged. -/
theorem po_stable (g : TypeGraph) :
    ∀ fuel,
      (∀ seen n, (Finset.range g.length \ seen).card ≤ fuel →
        poN g (fuel + 1) seen n = poN g (fuel + 2) seen n) ∧
      (∀ seen cs, (Finset.range g.length \ seen).card ≤ fuel →
        poL g (fuel + 1) seen cs = poL g (fuel + 2) seen cs) := by
  intro fuel
  induction fuel with
  | zero =>
    have hn : ∀ seen n, (Finset.range g.length \ seen).card ≤ 0 →
        poN g 1 seen n = poN g 2 seen n := by
      intro seen n hc
      rw [poN_succ, poN_succ]
      by_cases h : n ∈ seen ∨ voidKind g n
      · rw [if_pos h, if_pos h]
      · exfalso
        push_neg at h
        have hlt : n < g.length :=
          lt_length_of_not_voidKind (by simpa using h.2)
        have hmem : n ∈ Finset.range g.length \ seen := by
          simp [Finset.mem_sdiff, Finset.mem_range, hlt, h.1]
        have := Finset.card_pos.mpr ⟨n, hmem⟩
        omega
    refine ⟨hn, ?_⟩
    intro seen cs
    induction cs generalizing seen with
    | nil => intro _; rw [poL_nil, poL_nil]
    | cons c cs ih =>
      intro hc
      rw [poL_cons, poL_cons, ← hn seen c hc]
      have hsub := po_seen_subset g 1 |>.1 seen c
      have hc2 : (Finset.range g.length \ (poN g 1 seen c).2).card ≤ 0 := by
        calc (Finset.range g.length \ (poN g 1 seen c).2).card
            ≤ (Finset.range g.length \ seen).card :=
              Finset.card_le_card (Finset.sdiff_subset_sdiff (Finset.Subset.refl _) hsub)
          _ ≤ 0 := hc
      rw [ih (poN g 1 seen c).2 hc2]
  | succ fuel ihf =>
    have hn : ∀ seen n, (Finset.range g.length \ seen).card ≤ fuel + 1 →
        poN g (fuel + 2) seen n = poN g (fuel + 3) seen n := by
      intro seen n hc
      rw [poN_succ, poN_succ]
      by_cases h : n ∈ seen ∨ voidKind g n
      · rw [if_pos h, if_pos h]
      · rw [if_neg h, if_neg h]
        push_neg at h
        have hlt : n < g.length :=
          lt_length_of_not_voidKind (by simpa using h.2)
        have hmem : n ∈ Finset.range g.length \ seen := by
          simp [Finset.mem_sdiff, Finset.mem_range, hlt, h.1]
        have hins : (Finset.range g.length \ insert n seen).card ≤ fuel := by
          rw [Finset.sdiff_insert, Finset.card_erase_of_mem hmem]
          have := Finset.card_pos.mpr ⟨n, hmem⟩
          omega
        rw [ihf.2 (insert n seen) (childRefs (getNode g n)) hins]
    refine ⟨hn, ?_⟩
    intro seen cs
    induction cs generalizing seen with
    | nil => intro _; rw [poL_nil, poL_nil]
    | cons c cs ih =>
      intro hc
      rw [poL_cons, poL_cons, ← hn seen c hc]
      have hsub := po_seen_subset g (fuel + 2) |>.1 seen c
      have hc2 : (Finset.range g.length \ (poN g (fuel + 2) seen c).2).card ≤ fuel + 1 := by
        calc (Finset.range g.length \ (poN g (fuel + 2) seen c).2).card
            ≤ (Finset.range g.length \ seen).card :=
              Finset.card_le_card (Finset.sdiff_subset_sdiff (Finset.Subset.refl _) hsub)
          _ ≤ fuel + 1 := hc
      rw [ih (poN g (fuel + 2) seen c).2 hc2]

theorem poN_fuel_chain (g : TypeGraph) (seen : Finset Nat) (n : Nat) :
    ∀ f1 f2, (Finset.range g.length \ seen).card ≤ f1 → f1 ≤ f2 →
      poN g (f1 + 1) seen n = poN g (f2 + 1) seen n := by
  intro f1 f2 hc hle
  induction f2, hle using Nat.le_induction with
  | base => rfl
  | succ f2 hle ih =>
    rw [ih, (po_stable g f2).1 seen n (le_trans hc hle)]

/-- C6: the postorder traversal terminates and succeeds on acyclic and on
arbitrarily cyclic type graphs of arbitrary depth — any fuel of at least
`g.length + 1` yields the same converged result — it never re-descends into
an already visited node (the emitted list is duplicate-free and disjoint
from the incoming seen set), and the seen set accumulates across traversal
invocations (the outgoing seen set is the incoming one plus the output, so a
second traversal re-using it emits nothing already emitted). -/
theorem C6_postorder_terminates (g : TypeGraph) :
    (∀ fuel seen n, g.length + 1 ≤ fuel →
      poN g fuel seen n = postorderTraversal g seen n) ∧
    (∀ seen n,
      (postorderTraversal g seen n).2 =
        seen ∪ (postorderTraversal g seen n).1.toFinset ∧
      (postorderTraversal g seen n).1.Nodup ∧
      ∀ x ∈ (postorderTraversal g seen n).1, x ∉ seen) ∧
    (∀ seen n m,
      ∀ x ∈ (postorderTraversal g (postorderTraversal g seen n).2 m).1,
        x ∉ (postorderTraversal g seen n).1) := by
  have hcard : ∀ seen : Finset Nat,
      (Finset.range g.length \ seen).card ≤ g.length := by
    intro seen
    calc (Finset.range g.length \ seen).card
        ≤ (Finset.range g.length).card := Finset.card_le_card (Finset.sdiff_subset)
      _ = g.length := Finset.card_range _
  have hfuel : ∀ fuel (seen : Finset Nat) n, g.length + 1 ≤ fuel →
      poN g fuel seen n = postorderTraversal g seen n := by
    intro fuel seen n hge
    obtain ⟨f, rfl⟩ : ∃ f, fuel = f + 1 := ⟨fuel - 1, by omega⟩
    exact (poN_fuel_chain g seen n g.length f (hcard seen) (by omega)).symm
  refine ⟨hfuel, ?_, ?_⟩
  · intro seen n
    exact (po_output_spec g (g.length + 1)).1 seen n
  · intro seen n m x hx hx1
    obtain ⟨hset1, _, _⟩ := (po_output_spec g (g.length + 1)).1 seen n
    have hdis2 := ((po_output_spec g (g.length + 1)).1
      (postorderTraversal g seen n).2 m).2.2
    refine hdis2 x hx ?_
    show x ∈ (poN g (g.length + 1) seen n).2
    rw [hset1]
    exact Finset.mem_union_right _ (List.mem_toFinset.mpr hx1)

/-- A cyclic graph: a typedef whose target is a pointer back to the typedef
(a cycle reachable only through Typedef and Pointer indirection). -/
def gCyc : TypeGraph := [.typedef bazName 1, .ptr 0]

theorem C6_postorder_terminates_witness :
    poN gCyc 5 ∅ 0 = postorderTraversal gCyc ∅ 0 ∧
    (postorderTraversal gCyc ∅ 0).1 = [1, 0] := by
  refine ⟨(C6_postorder_terminates gCyc).1 5 ∅ 0 (by decide), ?_⟩
  decide

/-! ## Marshaler

Modelled from the spec (§4.3): "emit header, then for each TypeID in
ascending order emit its packed binary record (kind tag, name string-table
offset, size/encoding fields, and child references by TypeID), then emit the
accumulated string table".  TypeIDs for types already in the Builder are
their Builder positions + 1; transitively referenced types that are not in
the Builder are assigned the following IDs as the marshaler discovers them
(a worklist closure).  Enum64 compatibility (spec §4.3): an 8-byte enum is
emitted as a union whose members all reference one synthesized placeholder
Int named `<enum name>_placeholder`.

A worklist item is either a graph node or the synthesized placeholder of an
8-byte enum node. -/

abbrev WItem := Sum Nat Nat

instance : BEq WItem := instBEqOfDecidableEq

instance : LawfulBEq WItem := inferInstance

structure MarshalOptions where
  bigEndian : Bool
  replaceEnum64 : Bool
deriving DecidableEq

def isVoidItem (g : TypeGraph) : WItem → Bool
  | .inl n => voidKind g n
  | .inr _ => false

/-- "_placeholder", the suffix of the synthesized Int's name. -/
def phSuffix : BName := [95, 112, 108, 97, 99, 101, 104, 111, 108, 100, 101, 114]

/-- The worklist items a record emission refers to (and hence forces IDs
for): the node's children, or the synthesized placeholder for a replaced
8-byte enum. -/
def itemChildren (g : TypeGraph) (opts : MarshalOptions) : WItem → List WItem
  | .inr _ => []
  | .inl n =>
    match getNode g n with
    | .enum _ size _ _ =>
      if opts.replaceEnum64 ∧ size = 8 then [.inr n] else []
    | t => (childRefs t).map Sum.inl

/-- Process one worklist item: append each referenced item that is neither
void nor already queued. -/
def cloStep (g : TypeGraph) (opts : MarshalOptions) (q : List WItem)
    (it : WItem) : List WItem :=
  (itemChildren g opts it).foldl
    (fun (q : List WItem) (c : WItem) =>
      if isVoidItem g c = true ∨ c ∈ q then q else q ++ [c]) q

/-- The worklist closure: process queue entries in order (the queue may grow
while being processed); `none` on fuel exhaustion, which never happens with
the fuel supplied by `marshal` (proved below). -/
def cloLoop (g : TypeGraph) (opts : MarshalOptions) :
    Nat → List WItem → Nat → Option (List WItem)
  | 0, q, i => if q.length ≤ i then some q else none
  | fuel + 1, q, i =>
    if h : i < q.length then
      cloLoop g opts fuel (cloStep g opts q q[i]) (i + 1)
    else some q

/-- The TypeID of a worklist item relative to the final queue: its position
plus one; void is 0.  (Items outside the queue do not occur when the queue
is closed; the 0 default is never exercised then.) -/
def itemId (g : TypeGraph) (q : List WItem) (it : WItem) : Nat :=
  if isVoidItem g it then 0
  else if it ∈ q then q.indexOf it + 1
  else 0

/-! ### String table -/

structure StrTab where
  tab : List Nat
  entries : List (BName × Nat)
deriving DecidableEq

def strTabInit : StrTab := ⟨[0], [([], 0)]⟩

def findName (nm : BName) : List (BName × Nat) → Option Nat
  | [] => none
  | p :: rest => if p.1 = nm then some p.2 else findName nm rest

def addName (s : StrTab) (nm : BName) : StrTab :=
  match findName nm s.entries with
  | some _ => s
  | none => ⟨s.tab ++ nm ++ [0], s.entries ++ [(nm, s.tab.length)]⟩

def offsetOf (s : StrTab) (nm : BName) : Nat := (findName nm s.entries).getD 0

/-- Read the null-terminated name at a string-table offset. -/
def nameAt (tab : List Nat) (off : Nat) : Option BName :=
  if off < tab.length then some ((tab.drop off).takeWhile (fun b => b != 0))
  else none

/-- The names one worklist item contributes to the string table, in emission
order. -/
def itemNames (g : TypeGraph) : WItem → List BName
  | .inr n =>
    match getNode g n with
    | .enum nm _ _ _ => [nm ++ phSuffix]
    | _ => []
  | .inl n =>
    match getNode g n with
    | .void => []
    | .int nm _ _ => [nm]
    | .ptr _ => []
    | .arr _ _ => []
    | .struct nm _ ms => nm :: ms.map BtfMember.mname
    | .union nm _ ms => nm :: ms.map BtfMember.mname
    | .enum nm _ _ vs => nm :: vs.map Prod.fst
    | .typedef nm _ => [nm]
    | .fwd nm _ => [nm]

def addItemNames (g : TypeGraph) (s : StrTab) (it : WItem) : StrTab :=
  (itemNames g it).foldl addName s

def buildStrTab (g : TypeGraph) (q : List WItem) : StrTab :=
  q.foldl (addItemNames g) strTabInit

/-! ### Record emission -/

def kindInt : Nat := 1
def kindPtr : Nat := 2
def kindArray : Nat := 3
def kindStruct : Nat := 4
def kindUnion : Nat := 5
def kindEnum : Nat := 6
def kindFwd : Nat := 7
def kindTypedef : Nat := 8
def kindEnum64 : Nat := 19

/-- Pack the vlen (low 16 bits), kind (bits 24-28) and kind flag (bit 31)
into the second record word. -/
def mkInfo (vlen kind flag : Nat) : Nat :=
  vlen + kind * 2 ^ 24 + flag * 2 ^ 31

def boolFlag (b : Bool) : Nat := if b then 1 else 0

/-- The packed record of one worklist item, as a list of 32-bit words:
`[name offset, info, size-or-type]` followed by the kind-specific extra
words.  Child references go through `φ`, the final ID assignment. -/
def deflateItem (g : TypeGraph) (opts : MarshalOptions) (φ : WItem → Nat)
    (s : StrTab) : WItem → List Nat
  | .inr n =>
    match getNode g n with
    | .enum nm size signed _ =>
      [offsetOf s (nm ++ phSuffix), mkInfo 0 kindInt 0, size,
        boolFlag signed * 2 ^ 24 + size * 8]
    | _ => []
  | .inl n =>
    match getNode g n with
    | .void => []
    | .int nm size enc =>
      [offsetOf s nm, mkInfo 0 kindInt 0, size, enc * 2 ^ 24 + size * 8]
    | .ptr t => [0, mkInfo 0 kindPtr 0, φ (.inl t)]
    | .arr e cnt => [0, mkInfo 0 kindArray 0, 0, φ (.inl e), 0, cnt]
    | .struct nm size ms =>
      [offsetOf s nm, mkInfo ms.length kindStruct 0, size] ++
        (ms.map (fun m => [offsetOf s m.mname, φ (.inl m.mtyp), m.moffset])).flatten
    | .union nm size ms =>
      [offsetOf s nm, mkInfo ms.length kindUnion 0, size] ++
        (ms.map (fun m => [offsetOf s m.mname, φ (.inl m.mtyp), m.moffset])).flatten
    | .enum nm size signed vs =>
      if opts.replaceEnum64 ∧ size = 8 then
        [offsetOf s nm, mkInfo vs.length kindUnion 0, size] ++
          (vs.map (fun v => [offsetOf s v.1, φ (.inr n), 0])).flatten
      else if size = 8 then
        [offsetOf s nm, mkInfo vs.length kindEnum64 (boolFlag signed), size] ++
          (vs.map (fun v => [offsetOf s v.1, v.2 % 2 ^ 32, v.2 / 2 ^ 32])).flatten
      else
        [offsetOf s nm, mkInfo vs.length kindEnum (boolFlag signed), size] ++
          (vs.map (fun v => [offsetOf s v.1, v.2])).flatten
    | .typedef nm t => [offsetOf s nm, mkInfo 0 kindTypedef 0, φ (.inl t)]
    | .fwd nm isU => [offsetOf s nm, mkInfo 0 kindFwd (boolFlag isU), 0]

/-! ### Byte serialization -/

def u16b (be : Bool) (w : Nat) : List Nat :=
  let v := w % 2 ^ 16
  if be then [v / 256, v % 256] else [v % 256, v / 256]

def u32b (be : Bool) (w : Nat) : List Nat :=
  let v := w % 2 ^ 32
  if be then [v / 2 ^ 24 % 256, v / 2 ^ 16 % 256, v / 256 % 256, v % 256]
  else [v % 256, v / 256 % 256, v / 2 ^ 16 % 256, v / 2 ^ 24 % 256]

def wordsToBytes (be : Bool) (ws : List Nat) : List Nat := (ws.map (u32b be)).flatten

/-- The 24-byte header: magic, version, flags, header length, then the
type-section offset/length and string-section offset/length. -/
def headerBytes (be : Bool) (typeLen strLen : Nat) : List Nat :=
  u16b be 0xEB9F ++ [1, 0] ++ u32b be 24 ++ u32b be 0 ++ u32b be typeLen ++
    u32b be typeLen ++ u32b be strLen

/-- Marshal fuel: enough for all Builder entries plus every node and every
placeholder once. -/
def marshalFuel (g : TypeGraph) (b : Builder) : Nat :=
  b.types.length + 2 * g.length + 1

/-- Modelled from the spec (§4.3): `marshal(builder, options) -> bytes`.
Computes the worklist closure (assigning IDs to transitively referenced
types), then emits the header, each record in ascending TypeID order, and
the string table. -/
def marshal (g : TypeGraph) (b : Builder) (opts : MarshalOptions) :
    Option (List Nat) :=
  match cloLoop g opts (marshalFuel g b) (b.types.map Sum.inl) 0 with
  | none => none
  | some q =>
    let stb := buildStrTab g q
    let words := (q.map (deflateItem g opts (itemId g q) stb)).flatten
    let typeBytes := wordsToBytes opts.bigEndian words
    some (headerBytes opts.bigEndian typeBytes.length stb.tab.length ++
      typeBytes ++ stb.tab)

/-- Modelled from the spec (§4.3 and the `TestBuilderMarshal` check): the
Go `Marshal` has a pointer receiver; in the state-passing embedding it
returns the Builder it leaves behind, which is the one it received — the
encoder works on its own worklist copy. -/
def marshalStateful (g : TypeGraph) (b : Builder) (opts : MarshalOptions) :
    Option (List Nat) × Builder :=
  (marshal g b opts, b)

/-! ## Loader

Modelled from the spec (§4.4): `load(bytes, order) -> TypeGraph`, the
inverse of the Marshaler for well-formed input.  Parses the header, then
each packed record in ID order, failing on truncated input, out-of-range
string references or an unrecognized kind tag.  The result is the ID-indexed
arena (`Void` at ID 0); since the arena addresses types by ID, child
references need no rewriting pass. -/

def readU8 : List Nat → Option (Nat × List Nat)
  | b :: rest => some (b, rest)
  | [] => none

def readU16 (be : Bool) : List Nat → Option (Nat × List Nat)
  | b0 :: b1 :: rest =>
    some (if be then b0 * 256 + b1 else b0 + b1 * 256, rest)
  | _ => none

def readU32 (be : Bool) : List Nat → Option (Nat × List Nat)
  | b0 :: b1 :: b2 :: b3 :: rest =>
    some
      (if be then ((b0 * 256 + b1) * 256 + b2) * 256 + b3
        else ((b3 * 256 + b2) * 256 + b1) * 256 + b0, rest)
  | _ => none

def bytesToWords (be : Bool) : List Nat → Option (List Nat)
  | [] => some []
  | b0 :: b1 :: b2 :: b3 :: rest =>
    (bytesToWords be rest).map
      (fun ws =>
        (if be then ((b0 * 256 + b1) * 256 + b2) * 256 + b3
          else ((b3 * 256 + b2) * 256 + b1) * 256 + b0) :: ws)
  | _ => none

def parseMembers (strB : List Nat) : Nat → List Nat → Option (List BtfMember × List Nat)
  | 0, ws => some ([], ws)
  | vlen + 1, ws =>
    match ws with
    | no :: t :: off :: rest =>
      match nameAt strB no with
      | none => none
      | some nm =>
        (parseMembers strB vlen rest).map
          (fun p => (⟨nm, t, off⟩ :: p.1, p.2))
    | _ => none

def parseEnumVals (strB : List Nat) : Nat → List Nat → Option (List (BName × Nat) × List Nat)
  | 0, ws => some ([], ws)
  | vlen + 1, ws =>
    match ws with
    | no :: v :: rest =>
      match nameAt strB no with
      | none => none
      | some nm => (parseEnumVals strB vlen rest).map (fun p => ((nm, v) :: p.1, p.2))
    | _ => none

def parseEnum64Vals (strB : List Nat) : Nat → List Nat → Option (List (BName × Nat) × List Nat)
  | 0, ws => some ([], ws)
  | vlen + 1, ws =>
    match ws with
    | no :: lo :: hi :: rest =>
      match nameAt strB no with
      | none => none
      | some nm =>
        (parseEnum64Vals strB vlen rest).map
          (fun p => ((nm, lo + hi * 2 ^ 32) :: p.1, p.2))
    | _ => none

/-- Parse one packed record, returning the decoded node and the remaining
words. -/
def parseOne (strB : List Nat) (ws : List Nat) : Option (TNode × List Nat) :=
  match ws with
  | nameOff :: info :: sizeOrType :: rest =>
    let vlen := info % 2 ^ 16
    let kind := info / 2 ^ 24 % 32
    let flag := info / 2 ^ 31
    match nameAt strB nameOff with
    | none => none
    | some nm =>
      if kind = kindInt then
        match rest with
        | encw :: rest2 => some (.int nm sizeOrType (encw / 2 ^ 24 % 16), rest2)
        | _ => none
      else if kind = kindPtr then some (.ptr sizeOrType, rest)
      else if kind = kindArray then
        match rest with
        | e :: _idx :: cnt :: rest2 => some (.arr e cnt, rest2)
        | _ => none
      else if kind = kindStruct then
        (parseMembers strB vlen rest).map
          (fun p => (.struct nm sizeOrType p.1, p.2))
      else if kind = kindUnion then
        (parseMembers strB vlen rest).map
          (fun p => (.union nm sizeOrType p.1, p.2))
      else if kind = kindEnum then
        (parseEnumVals strB vlen rest).map
          (fun p => (.enum nm sizeOrType (flag = 1) p.1, p.2))
      else if kind = kindEnum64 then
        (parseEnum64Vals strB vlen rest).map
          (fun p => (.enum nm sizeOrType (flag = 1) p.1, p.2))
      else if kind = kindTypedef then some (.typedef nm sizeOrType, rest)
      else if kind = kindFwd then some (.fwd nm (flag = 1), rest)
      else none
  | _ => none

/-- Parse all records; the fuel is the word count, which dominates the
record count. -/
def parseTypes (strB : List Nat) : Nat → List Nat → Option (List TNode)
  | _, [] => some []
  | 0, _ :: _ => none
  | fuel + 1, w :: ws =>
    match parseOne strB (w :: ws) with
    | none => none
    | some (t, rest) => (parseTypes strB fuel rest).map (t :: ·)

def loadRawSpec (bytes : List Nat) (be : Bool) : Option (List TNode) := do
  let (magic, r) ← readU16 be bytes
  guard (magic = 0xEB9F)
  let (version, r) ← readU8 r
  guard (version = 1)
  let (_flags, r) ← readU8 r
  let (hdrLen, r) ← readU32 be r
  guard (hdrLen = 24)
  let (typeOff, r) ← readU32 be r
  let (typeLen, r) ← readU32 be r
  let (strOff, r) ← readU32 be r
  let (strLen, r) ← readU32 be r
  guard (typeOff + typeLen ≤ r.length)
  guard (strOff + strLen ≤ r.length)
  let typeBytes := (r.drop typeOff).take typeLen
  let strB := (r.drop strOff).take strLen
  let ws ← bytesToWords be typeBytes
  let ts ← parseTypes strB ws.length ws
  return (.void :: ts)

end BtfModel

namespace BtfModel

/-- C3: Marshal does not mutate the Builder: in the state-passing embedding
of the pointer-receiver method, the Builder handed back by a Marshal call is
the Builder it received — the encoder extends only its own worklist copy, so
the structural snapshot before the call equals the snapshot after it.  This
holds for every Builder and every MarshalOptions, by construction of the
spec-modelled `marshalStateful`. -/
theorem C3_marshal_never_mutates_builder (g : TypeGraph) (b : Builder)
    (opts : MarshalOptions) :
    (marshalStateful g b opts).2 = b ∧
    (marshalStateful g b opts).2.types = b.types :=
  ⟨rfl, rfl⟩

/-- The 8-byte signed enum of `TestMarshalEnum64` with values A=0, B=1:
arena node 0 is Void, node 1 the enum named "enum64". -/
def enum64Name : BName := [101, 110, 117, 109, 54, 52]

def gEnum64 : TypeGraph :=
  [.void, .enum enum64Name 8 true [([65], 0), ([66], 1)]]

/-- C7, counterexample to the original claim: `TestMarshalEnum64`
(tools.go:529-530) pins `NewBuilder([]Type{enum})` succeeding although its
first element is not Void — the constructor accepts the sequence and assigns
the enum TypeID 1, so "fails with a construction error when the first
element is not Void" is false of the program. -/
theorem C7_nonvoid_first_cex :
    voidKind gEnum64 1 = false ∧
    newBuilder gEnum64 [1] = some ⟨[1]⟩ ∧
    Builder.idOf gEnum64 ⟨[1]⟩ 1 = some 1 := by
  decide

/-- C4: marshaling the 8-byte signed enum `enum64` with values A=0, B=1
under ReplaceEnum64 decodes as a Union of the same name and size 8 whose two
members A and B both reference TypeID 2 — one single shared synthesized
placeholder Int named `enum64_placeholder`, of size 8 and signed encoding
(encoding value 1). -/
theorem C4_enum64_replaced_by_union :
    (do
      let b ← newBuilder gEnum64 [0, 1]
      let bs ← marshal gEnum64 b ⟨false, true⟩
      loadRawSpec bs false) =
      some [.void,
        .union enum64Name 8 [⟨[65], 2, 0⟩, ⟨[66], 2, 0⟩],
        .int (enum64Name ++ phSuffix) 8 1] := by
  decide

end BtfModel


namespace BtfModel

/-! ## Round-trip infrastructure (C1)

Well-formedness of a graph: the intrinsic bounds the 32-bit wire format
imposes (vlen is a 16-bit field, name offsets, sizes, member offsets and
counts are 32-bit, Int sizes fit the 8-bit bit-count field).  The graph and
per-record bounds of 1024 keep the section lengths provably below `2^32`. -/

abbrev nameWf (nm : BName) : Prop := 0 ∉ nm ∧ nm.length ≤ 1024

def NodeWf : TNode → Prop
  | .void => True
  | .int nm size enc => nameWf nm ∧ size < 32 ∧ enc < 16
  | .ptr _ => True
  | .arr _ c => c < 2 ^ 32
  | .struct nm size ms =>
    nameWf nm ∧ size < 2 ^ 32 ∧ ms.length ≤ 1024 ∧
      ∀ m ∈ ms, nameWf m.mname ∧ m.moffset < 2 ^ 32
  | .union nm size ms =>
    nameWf nm ∧ size < 2 ^ 32 ∧ ms.length ≤ 1024 ∧
      ∀ m ∈ ms, nameWf m.mname ∧ m.moffset < 2 ^ 32
  | .enum nm size _ vs =>
    nameWf nm ∧ size < 2 ^ 32 ∧ vs.length ≤ 1024 ∧
      ∀ v ∈ vs, nameWf v.1 ∧ (if size = 8 then v.2 < 2 ^ 64 else v.2 < 2 ^ 32)
  | .typedef nm _ => nameWf nm
  | .fwd nm _ => nameWf nm

instance : (t : TNode) → Decidable (NodeWf t)
  | .void => inferInstanceAs (Decidable True)
  | .int nm size enc => inferInstanceAs (Decidable (nameWf nm ∧ size < 32 ∧ enc < 16))
  | .ptr _ => inferInstanceAs (Decidable True)
  | .arr _ c => inferInstanceAs (Decidable (c < 2 ^ 32))
  | .struct nm size ms =>
    inferInstanceAs (Decidable (nameWf nm ∧ size < 2 ^ 32 ∧ ms.length ≤ 1024 ∧
      ∀ m ∈ ms, nameWf m.mname ∧ m.moffset < 2 ^ 32))
  | .union nm size ms =>
    inferInstanceAs (Decidable (nameWf nm ∧ size < 2 ^ 32 ∧ ms.length ≤ 1024 ∧
      ∀ m ∈ ms, nameWf m.mname ∧ m.moffset < 2 ^ 32))
  | .enum nm size _ vs =>
    inferInstanceAs (Decidable (nameWf nm ∧ size < 2 ^ 32 ∧ vs.length ≤ 1024 ∧
      ∀ v ∈ vs, nameWf v.1 ∧ (if size = 8 then v.2 < 2 ^ 64 else v.2 < 2 ^ 32)))
  | .typedef nm _ => inferInstanceAs (Decidable (nameWf nm))
  | .fwd nm _ => inferInstanceAs (Decidable (nameWf nm))

def WFGraph (g : TypeGraph) : Prop :=
  g.length ≤ 1024 ∧ ∀ t ∈ g, NodeWf t

instance (g : TypeGraph) : Decidable (WFGraph g) :=
  inferInstanceAs (Decidable (g.length ≤ 1024 ∧ ∀ t ∈ g, NodeWf t))

/-- Rewrite the child references of a node through an ID assignment. -/
def renameNode (φ : Nat → Nat) : TNode → TNode
  | .void => .void
  | .int nm s e => .int nm s e
  | .ptr t => .ptr (φ t)
  | .arr e c => .arr (φ e) c
  | .struct nm s ms => .struct nm s (ms.map fun m => ⟨m.mname, φ m.mtyp, m.moffset⟩)
  | .union nm s ms => .union nm s (ms.map fun m => ⟨m.mname, φ m.mtyp, m.moffset⟩)
  | .enum nm s sg vs => .enum nm s sg vs
  | .typedef nm t => .typedef nm (φ t)
  | .fwd nm u => .fwd nm u

/-- The nodes reachable from the Builder roots through ownership edges. -/
inductive Reaches (g : TypeGraph) (roots : List Nat) : Nat → Prop
  | root {n : Nat} : n ∈ roots → Reaches g roots n
  | child {m c : Nat} : Reaches g roots m → c ∈ childRefs (getNode g m) →
      Reaches g roots c

/-! ### Word/byte layer -/

theorem readU16_u16b (be : Bool) (w : Nat) (hw : w < 2 ^ 16) (rest : List Nat) :
    readU16 be (u16b be w ++ rest) = some (w, rest) := by
  cases be <;> simp [u16b, readU16] <;> omega

theorem readU32_u32b (be : Bool) (w : Nat) (hw : w < 2 ^ 32) (rest : List Nat) :
    readU32 be (u32b be w ++ rest) = some (w, rest) := by
  cases be <;> simp [u32b, readU32] <;> omega

theorem u32b_length (be : Bool) (w : Nat) : (u32b be w).length = 4 := by
  cases be <;> simp [u32b]

theorem bytesToWords_cons (be : Bool) (w : Nat) (hw : w < 2 ^ 32) (bs : List Nat) :
    bytesToWords be (u32b be w ++ bs) =
      (bytesToWords be bs).map (fun t => w :: t) := by
  cases be <;>
    (simp [u32b, bytesToWords]
     cases bytesToWords _ bs <;> simp <;> omega)

theorem bytesToWords_round (be : Bool) :
    ∀ ws : List Nat, (∀ w ∈ ws, w < 2 ^ 32) →
    bytesToWords be (wordsToBytes be ws) = some ws := by
  intro ws
  induction ws with
  | nil => intro _; rfl
  | cons w ws ih =>
    intro hb
    have hw : w < 2 ^ 32 := hb w (by simp)
    have htl := ih (fun x hx => hb x (by simp [hx]))
    have hsplit : wordsToBytes be (w :: ws) = u32b be w ++ wordsToBytes be ws := by
      simp [wordsToBytes]
    rw [hsplit, bytesToWords_cons be w hw, htl]
    rfl

theorem wordsToBytes_length (be : Bool) (ws : List Nat) :
    (wordsToBytes be ws).length = 4 * ws.length := by
  induction ws with
  | nil => rfl
  | cons w ws ih =>
    simp only [wordsToBytes, List.map_cons, List.flatten_cons, List.length_append,
      u32b_length, List.length_cons] at *
    omega


/-! ### String table correctness -/

/-- A recorded (name, offset) pair is backed by the table: the name's bytes
sit at the offset, null-terminated, and contain no null themselves. -/
def entryOk (tab : List Nat) (p : BName × Nat) : Prop :=
  0 ∉ p.1 ∧ ∃ rest, tab.drop p.2 = p.1 ++ 0 :: rest

def StrTabWf (s : StrTab) : Prop := ∀ p ∈ s.entries, entryOk s.tab p

theorem takeWhile_name (nm : BName) (h : 0 ∉ nm) (rest : List Nat) :
    (nm ++ 0 :: rest).takeWhile (fun b => b != 0) = nm := by
  induction nm with
  | nil => simp
  | cons a nm ih =>
    have ha : a ≠ 0 := fun e => h (by simp [e])
    have hn : 0 ∉ nm := fun e => h (by simp [e])
    simp [List.takeWhile_cons, ha, ih hn]

theorem entryOk_lt {tab : List Nat} {p : BName × Nat} (h : entryOk tab p) :
    p.2 < tab.length := by
  obtain ⟨_, rest, hdrop⟩ := h
  by_contra hc
  push_neg at hc
  have hnil : tab.drop p.2 = [] := List.drop_eq_nil_of_le hc
  rw [hnil] at hdrop
  exact absurd hdrop.symm (by simp)

theorem nameAt_of_entryOk {tab : List Nat} {nm : BName} {off : Nat}
    (h : entryOk tab (nm, off)) : nameAt tab off = some nm := by
  have hlt : off < tab.length := entryOk_lt h
  obtain ⟨h0, rest, hdrop⟩ := h
  unfold nameAt
  rw [if_pos hlt, hdrop, takeWhile_name nm h0 rest]

theorem entryOk_append {tab : List Nat} {p : BName × Nat} (h : entryOk tab p)
    (x : List Nat) : entryOk (tab ++ x) p := by
  have hle : p.2 ≤ tab.length := le_of_lt (entryOk_lt h)
  obtain ⟨h0, rest, hdrop⟩ := h
  refine ⟨h0, rest ++ x, ?_⟩
  rw [List.drop_append_of_le_length hle, hdrop]
  simp

theorem findName_append (nm : BName) (l1 l2 : List (BName × Nat)) :
    findName nm (l1 ++ l2) =
      match findName nm l1 with
      | some v => some v
      | none => findName nm l2 := by
  induction l1 with
  | nil => simp [findName]
  | cons p l1 ih =>
    by_cases h : p.1 = nm
    · simp [findName, h]
    · simp only [List.cons_append, findName, if_neg h, List.append_eq, ih]

theorem findName_mem (nm : BName) :
    ∀ (es : List (BName × Nat)) (off : Nat), findName nm es = some off →
      (nm, off) ∈ es := by
  intro es
  induction es with
  | nil => intro off h; exact absurd h (by simp [findName])
  | cons p es ih =>
    intro off h
    by_cases hp : p.1 = nm
    · rw [findName, if_pos hp] at h
      obtain ⟨p1, p2⟩ := p
      simp only at hp h
      injection h with h2
      subst hp
      subst h2
      exact List.mem_cons_self _ _
    · rw [findName, if_neg hp] at h
      exact List.mem_cons_of_mem _ (ih off h)

theorem addName_tab_extend (s : StrTab) (nm : BName) :
    ∃ x, (addName s nm).tab = s.tab ++ x := by
  unfold addName
  cases h : findName nm s.entries
  · exact ⟨nm ++ [0], by simp⟩
  · exact ⟨[], by simp⟩

theorem addName_wf {s : StrTab} {nm : BName} (hwf : StrTabWf s) (h0 : 0 ∉ nm) :
    StrTabWf (addName s nm) := by
  cases h : findName nm s.entries with
  | some v => simpa [addName, h] using hwf
  | none =>
    intro p hp
    simp only [addName, h, List.mem_append, List.mem_singleton] at hp ⊢
    have htab : s.tab ++ nm ++ [0] = s.tab ++ (nm ++ [0]) := by
      rw [List.append_assoc]
    rcases hp with hp | hp
    · rw [htab]
      exact entryOk_append (hwf p hp) _
    · subst hp
      refine ⟨h0, [], ?_⟩
      show (s.tab ++ nm ++ [0]).drop s.tab.length = nm ++ 0 :: []
      rw [htab, List.drop_left]

theorem addName_present (s : StrTab) (nm : BName) :
    (findName nm (addName s nm).entries).isSome := by
  unfold addName
  cases h : findName nm s.entries
  · simp only [findName_append, h]
    simp [findName]
  · simp [h]

theorem addName_mono {s : StrTab} {nm' : BName}
    (h : (findName nm' s.entries).isSome) (nm : BName) :
    (findName nm' (addName s nm).entries).isSome := by
  unfold addName
  cases hf : findName nm s.entries
  · obtain ⟨v, hv⟩ := Option.isSome_iff_exists.mp h
    simp [findName_append, hv]
  · exact h

theorem addName_len (s : StrTab) (nm : BName) :
    (addName s nm).tab.length ≤ s.tab.length + (nm.length + 1) := by
  unfold addName
  cases h : findName nm s.entries <;> simp <;> omega

/-! Fold the `addName` facts over a list of names. -/

theorem foldl_addName_wf :
    ∀ (nms : List BName) (s : StrTab), StrTabWf s → (∀ nm ∈ nms, 0 ∉ nm) →
      StrTabWf (nms.foldl addName s) := by
  intro nms
  induction nms with
  | nil => intro s hs _; exact hs
  | cons nm nms ih =>
    intro s hs h0
    exact ih (addName s nm) (addName_wf hs (h0 nm (by simp)))
      (fun x hx => h0 x (by simp [hx]))

theorem foldl_addName_extend :
    ∀ (nms : List BName) (s : StrTab), ∃ x, (nms.foldl addName s).tab = s.tab ++ x := by
  intro nms
  induction nms with
  | nil => intro s; exact ⟨[], by simp⟩
  | cons nm nms ih =>
    intro s
    obtain ⟨x1, h1⟩ := addName_tab_extend s nm
    obtain ⟨x2, h2⟩ := ih (addName s nm)
    exact ⟨x1 ++ x2, by simp [h2, h1, List.append_assoc]⟩

theorem foldl_addName_mono :
    ∀ (nms : List BName) (s : StrTab) (nm' : BName),
      (findName nm' s.entries).isSome →
      (findName nm' ((nms.foldl addName s).entries)).isSome := by
  intro nms
  induction nms with
  | nil => intro s nm' h; exact h
  | cons nm nms ih =>
    intro s nm' h
    exact ih (addName s nm) nm' (addName_mono h nm)

theorem foldl_addName_adds :
    ∀ (nms : List BName) (s : StrTab) (nm : BName), nm ∈ nms →
      (findName nm ((nms.foldl addName s).entries)).isSome := by
  intro nms
  induction nms with
  | nil => intro s nm h; exact absurd h (by simp)
  | cons nm0 nms ih =>
    intro s nm h
    rcases List.mem_cons.mp h with h | h
    · subst h
      exact foldl_addName_mono nms (addName s nm) nm (addName_present s nm)
    · exact ih (addName s nm0) nm h

theorem foldl_addName_len :
    ∀ (nms : List BName) (s : StrTab),
      (nms.foldl addName s).tab.length ≤
        s.tab.length + (nms.map (fun nm => nm.length + 1)).sum := by
  intro nms
  induction nms with
  | nil => intro s; simp
  | cons nm nms ih =>
    intro s
    have h1 := addName_len s nm
    have h2 := ih (addName s nm)
    simp only [List.foldl_cons, List.map_cons, List.sum_cons]
    omega


/-! ### The built string table resolves every emitted name -/

theorem strTabInit_wf : StrTabWf strTabInit := by
  intro p hp
  simp only [strTabInit, List.mem_singleton] at hp
  subst hp
  exact ⟨by simp, [], rfl⟩

theorem nodeWf_getNode {g : TypeGraph} (hwf : WFGraph g) (n : Nat) :
    NodeWf (getNode g n) := by
  unfold getNode
  rcases Nat.lt_or_ge n g.length with h | h
  · have hg : g[n]? = some g[n] := List.getElem?_eq_getElem h
    simp only [List.getD, List.get?_eq_getElem?, hg, Option.getD_some]
    exact hwf.2 _ (List.getElem_mem h)
  · have hg : g[n]? = none := List.getElem?_eq_none h
    simp only [List.getD, List.get?_eq_getElem?, hg, Option.getD_none]
    trivial

/-- The names carried by one node, in record order. -/
def nodeNames : TNode → List BName
  | .void => []
  | .int nm _ _ => [nm]
  | .ptr _ => []
  | .arr _ _ => []
  | .struct nm _ ms => nm :: ms.map BtfMember.mname
  | .union nm _ ms => nm :: ms.map BtfMember.mname
  | .enum nm _ _ vs => nm :: vs.map Prod.fst
  | .typedef nm _ => [nm]
  | .fwd nm _ => [nm]

theorem itemNames_inl (g : TypeGraph) (n : Nat) :
    itemNames g (.inl n) = nodeNames (getNode g n) := by
  cases hg : getNode g n <;> simp [itemNames, nodeNames, hg]

theorem nodeNames_zero_free {t : TNode} (hn : NodeWf t) :
    ∀ nm ∈ nodeNames t, 0 ∉ nm := by
  intro nm hnm
  cases t with
  | void => simp [nodeNames] at hnm
  | int a sz e =>
    simp only [NodeWf] at hn
    simp only [nodeNames, List.mem_singleton] at hnm
    exact hnm ▸ hn.1.1
  | ptr t => simp [nodeNames] at hnm
  | arr e c => simp [nodeNames] at hnm
  | struct a sz ms =>
    simp only [NodeWf] at hn
    simp only [nodeNames, List.mem_cons, List.mem_map] at hnm
    rcases hnm with h | ⟨m, hm, hmn⟩
    · exact h ▸ hn.1.1
    · exact hmn ▸ ((hn.2.2.2 m hm).1).1
  | union a sz ms =>
    simp only [NodeWf] at hn
    simp only [nodeNames, List.mem_cons, List.mem_map] at hnm
    rcases hnm with h | ⟨m, hm, hmn⟩
    · exact h ▸ hn.1.1
    · exact hmn ▸ ((hn.2.2.2 m hm).1).1
  | enum a sz sg vs =>
    simp only [NodeWf] at hn
    simp only [nodeNames, List.mem_cons, List.mem_map] at hnm
    rcases hnm with h | ⟨v, hv, hvn⟩
    · exact h ▸ hn.1.1
    · exact hvn ▸ ((hn.2.2.2 v hv).1).1
  | typedef a t =>
    simp only [NodeWf] at hn
    simp only [nodeNames, List.mem_singleton] at hnm
    exact hnm ▸ hn.1
  | fwd a u =>
    simp only [NodeWf] at hn
    simp only [nodeNames, List.mem_singleton] at hnm
    exact hnm ▸ hn.1

theorem itemNames_zero_free {g : TypeGraph} (hwf : WFGraph g) (it : WItem) :
    ∀ nm ∈ itemNames g it, 0 ∉ nm := by
  intro nm hnm
  cases it with
  | inl n =>
    rw [itemNames_inl] at hnm
    exact nodeNames_zero_free (nodeWf_getNode hwf n) nm hnm
  | inr n =>
    have hn := nodeWf_getNode hwf n
    cases hg : getNode g n <;> rw [hg] at hn <;>
      simp only [itemNames, hg, List.mem_singleton, List.not_mem_nil] at hnm
    case enum a sz sg vs =>
      simp only [NodeWf] at hn
      subst hnm
      intro hz
      rcases List.mem_append.mp hz with hz | hz
      · exact hn.1.1 hz
      · revert hz
        decide

theorem itemsFold_wf {g : TypeGraph} (hwf : WFGraph g) :
    ∀ (q : List WItem) (s : StrTab), StrTabWf s →
      StrTabWf (q.foldl (addItemNames g) s) := by
  intro q
  induction q with
  | nil => intro s hs; exact hs
  | cons it q ih =>
    intro s hs
    exact ih _ (foldl_addName_wf _ s hs (itemNames_zero_free hwf it))

theorem itemsFold_extend (g : TypeGraph) :
    ∀ (q : List WItem) (s : StrTab),
      ∃ x, (q.foldl (addItemNames g) s).tab = s.tab ++ x := by
  intro q
  induction q with
  | nil => intro s; exact ⟨[], by simp⟩
  | cons it q ih =>
    intro s
    obtain ⟨x1, h1⟩ := foldl_addName_extend (itemNames g it) s
    obtain ⟨x2, h2⟩ := ih (addItemNames g s it)
    refine ⟨x1 ++ x2, ?_⟩
    rw [List.foldl_cons, h2]
    show (addItemNames g s it).tab ++ x2 = s.tab ++ (x1 ++ x2)
    rw [show (addItemNames g s it).tab = s.tab ++ x1 from h1, List.append_assoc]

theorem itemsFold_mono (g : TypeGraph) :
    ∀ (q : List WItem) (s : StrTab) (nm : BName),
      (findName nm s.entries).isSome →
      (findName nm ((q.foldl (addItemNames g) s).entries)).isSome := by
  intro q
  induction q with
  | nil => intro s nm h; exact h
  | cons it q ih =>
    intro s nm h
    exact ih _ nm (foldl_addName_mono _ s nm h)

theorem itemsFold_present (g : TypeGraph) :
    ∀ (q : List WItem) (s : StrTab), ∀ it ∈ q, ∀ nm ∈ itemNames g it,
      (findName nm ((q.foldl (addItemNames g) s).entries)).isSome := by
  intro q
  induction q with
  | nil => intro s it h; exact absurd h (by simp)
  | cons it0 q ih =>
    intro s it hit nm hnm
    rcases List.mem_cons.mp hit with h | h
    · subst h
      exact itemsFold_mono g q _ nm (foldl_addName_adds _ s nm hnm)
    · exact ih _ it h nm hnm

/-- Every name of every queued item resolves through the built table. -/
theorem buildStrTab_resolves {g : TypeGraph} (hwf : WFGraph g) (q : List WItem) :
    StrTabWf (buildStrTab g q) ∧
    ∀ it ∈ q, ∀ nm ∈ itemNames g it,
      nameAt (buildStrTab g q).tab (offsetOf (buildStrTab g q) nm) = some nm := by
  have hw : StrTabWf (buildStrTab g q) := itemsFold_wf hwf q strTabInit strTabInit_wf
  refine ⟨hw, ?_⟩
  intro it hit nm hnm
  have hp := itemsFold_present g q strTabInit it hit nm hnm
  obtain ⟨off, hoff⟩ := Option.isSome_iff_exists.mp hp
  have hmem : (nm, off) ∈ (buildStrTab g q).entries := findName_mem nm _ off hoff
  have hok := hw _ hmem
  unfold offsetOf buildStrTab
  rw [hoff]
  exact nameAt_of_entryOk hok


/-! ### Record-level round trip -/

theorem mkInfo_vlen {vlen kind flag : Nat} (hv : vlen < 2 ^ 16) (hk : kind < 32)
    (hf : flag ≤ 1) : mkInfo vlen kind flag % 2 ^ 16 = vlen := by
  unfold mkInfo; omega

theorem mkInfo_kind {vlen kind flag : Nat} (hv : vlen < 2 ^ 16) (hk : kind < 32)
    (hf : flag ≤ 1) : mkInfo vlen kind flag / 2 ^ 24 % 32 = kind := by
  unfold mkInfo; omega

theorem mkInfo_flag {vlen kind flag : Nat} (hv : vlen < 2 ^ 16) (hk : kind < 32)
    (hf : flag ≤ 1) : mkInfo vlen kind flag / 2 ^ 31 = flag := by
  unfold mkInfo; omega

theorem boolFlag_le_one (b : Bool) : boolFlag b ≤ 1 := by
  cases b <;> simp [boolFlag]

theorem boolFlag_round (b : Bool) : decide (boolFlag b = 1) = b := by
  cases b <;> rfl

theorem parseMembers_round (strB : List Nat) (enc : BtfMember → List Nat)
    (out : BtfMember → BtfMember) :
    ∀ (ms : List BtfMember) (rest : List Nat),
      (∀ m ∈ ms, enc m = [(enc m).headI, (out m).mtyp, (out m).moffset] ∧
        nameAt strB (enc m).headI = some (out m).mname) →
      parseMembers strB ms.length ((ms.map enc).flatten ++ rest) =
        some (ms.map out, rest) := by
  intro ms
  induction ms with
  | nil => intro rest _; simp [parseMembers]
  | cons m ms ih =>
    intro rest henc
    obtain ⟨hm, hname⟩ := henc m (by simp)
    simp only [List.map_cons, List.flatten_cons, List.length_cons, List.append_assoc]
    rw [hm]
    simp only [List.cons_append, parseMembers, hname, List.nil_append,
      ih rest (fun x hx => henc x (by simp [hx]))]
    rfl

theorem parseEnumVals_round (strB : List Nat) (enc : BName × Nat → List Nat)
    (out : BName × Nat → BName × Nat) :
    ∀ (vs : List (BName × Nat)) (rest : List Nat),
      (∀ v ∈ vs, enc v = [(enc v).headI, (out v).2] ∧
        nameAt strB (enc v).headI = some (out v).1) →
      parseEnumVals strB vs.length ((vs.map enc).flatten ++ rest) =
        some (vs.map out, rest) := by
  intro vs
  induction vs with
  | nil => intro rest _; simp [parseEnumVals]
  | cons v vs ih =>
    intro rest henc
    obtain ⟨hv, hname⟩ := henc v (by simp)
    simp only [List.map_cons, List.flatten_cons, List.length_cons, List.append_assoc]
    rw [hv]
    simp only [List.cons_append, parseEnumVals, hname, List.nil_append,
      ih rest (fun x hx => henc x (by simp [hx]))]
    rfl

theorem parseEnum64Vals_round (strB : List Nat) (stb : StrTab) :
    ∀ (vs : List (BName × Nat)) (rest : List Nat),
      (∀ v ∈ vs, nameAt strB (offsetOf stb v.1) = some v.1) →
      parseEnum64Vals strB vs.length
        ((vs.map (fun v => [offsetOf stb v.1, v.2 % 2 ^ 32, v.2 / 2 ^ 32])).flatten ++ rest) =
        some (vs, rest) := by
  intro vs
  induction vs with
  | nil => intro rest _; simp [parseEnum64Vals]
  | cons v vs ih =>
    intro rest hname
    simp only [List.map_cons, List.flatten_cons, List.length_cons, List.append_assoc,
      List.cons_append, List.nil_append, parseEnum64Vals, hname v (by simp),
      ih rest (fun x hx => hname x (by simp [hx])), Option.map_some]
    have hv : v.2 % 2 ^ 32 + v.2 / 2 ^ 32 * 2 ^ 32 = v.2 := Nat.mod_add_div' v.2 (2 ^ 32)
    rw [hv]
    rfl


theorem parseOne_deflate {g : TypeGraph} {opts : MarshalOptions} {φ : WItem → Nat}
    {stb : StrTab} (hrep : opts.replaceEnum64 = false) {n : Nat}
    (hwfn : NodeWf (getNode g n))
    (hname : ∀ nm ∈ itemNames g (.inl n),
      nameAt stb.tab (offsetOf stb nm) = some nm)
    (hz : nameAt stb.tab 0 = some [])
    (hnv : voidKind g n = false)
    (rest : List Nat) :
    parseOne stb.tab (deflateItem g opts φ stb (.inl n) ++ rest) =
      some (renameNode (fun c => φ (.inl c)) (getNode g n), rest) := by
  rw [itemNames_inl] at hname
  cases hg : getNode g n with
  | void =>
    exact absurd (show voidKind g n = true by simp [voidKind, hg])
      (by simp [hnv])
  | ptr t =>
    simp only [deflateItem, hg, renameNode, List.cons_append, List.nil_append, parseOne]
    rw [mkInfo_vlen (by omega) (by simp [kindPtr]) (by omega),
      mkInfo_kind (by omega) (by simp [kindPtr]) (by omega),
      mkInfo_flag (by omega) (by simp [kindPtr]) (by omega)]
    simp [hz, kindInt, kindPtr]
  | int nm size enc =>
    rw [hg] at hname hwfn
    simp only [NodeWf] at hwfn
    have hme : nameAt stb.tab (offsetOf stb nm) = some nm :=
      hname nm (by simp [nodeNames])
    simp only [deflateItem, hg, renameNode, List.cons_append, List.nil_append, parseOne]
    rw [mkInfo_vlen (by omega) (by simp [kindInt]) (by omega),
      mkInfo_kind (by omega) (by simp [kindInt]) (by omega)]
    simp only [hme, kindInt, if_pos rfl]
    have henc : (enc * 2 ^ 24 + size * 8) / 2 ^ 24 % 16 = enc := by
      obtain ⟨h1, h2, h3⟩ := hwfn
      omega
    rw [henc]
    rw [if_pos trivial]
  | arr e cnt =>
    simp only [deflateItem, hg, renameNode, List.cons_append, List.nil_append, parseOne]
    rw [mkInfo_vlen (by omega) (by simp [kindArray]) (by omega),
      mkInfo_kind (by omega) (by simp [kindArray]) (by omega),
      mkInfo_flag (by omega) (by simp [kindArray]) (by omega)]
    simp [hz, kindInt, kindPtr, kindArray]
  | struct nm size ms =>
    rw [hg] at hname hwfn
    simp only [NodeWf] at hwfn
    obtain ⟨hnm, hsz, hlen, hmem⟩ := hwfn
    have hme : nameAt stb.tab (offsetOf stb nm) = some nm :=
      hname nm (by simp [nodeNames])
    simp only [deflateItem, hg, renameNode, List.cons_append, List.nil_append,
      List.append_assoc, parseOne]
    rw [mkInfo_vlen (by omega) (by simp [kindStruct]) (by omega),
      mkInfo_kind (by omega) (by simp [kindStruct]) (by omega)]
    simp only [hme, kindInt, kindPtr, kindArray, kindStruct]
    norm_num
    rw [parseMembers_round stb.tab
      (fun m => [offsetOf stb m.mname, φ (.inl m.mtyp), m.moffset])
      (fun m => ⟨m.mname, φ (.inl m.mtyp), m.moffset⟩) ms rest
      (fun m hm => ⟨rfl, hname m.mname (by
        simp only [nodeNames, List.mem_cons, List.mem_map]
        exact Or.inr ⟨m, hm, rfl⟩)⟩)]
  | union nm size ms =>
    rw [hg] at hname hwfn
    simp only [NodeWf] at hwfn
    obtain ⟨hnm, hsz, hlen, hmem⟩ := hwfn
    have hme : nameAt stb.tab (offsetOf stb nm) = some nm :=
      hname nm (by simp [nodeNames])
    simp only [deflateItem, hg, renameNode, List.cons_append, List.nil_append,
      List.append_assoc, parseOne]
    rw [mkInfo_vlen (by omega) (by simp [kindUnion]) (by omega),
      mkInfo_kind (by omega) (by simp [kindUnion]) (by omega)]
    simp only [hme, kindInt, kindPtr, kindArray, kindStruct, kindUnion]
    norm_num
    rw [parseMembers_round stb.tab
      (fun m => [offsetOf stb m.mname, φ (.inl m.mtyp), m.moffset])
      (fun m => ⟨m.mname, φ (.inl m.mtyp), m.moffset⟩) ms rest
      (fun m hm => ⟨rfl, hname m.mname (by
        simp only [nodeNames, List.mem_cons, List.mem_map]
        exact Or.inr ⟨m, hm, rfl⟩)⟩)]
  | typedef nm t =>
    rw [hg] at hname
    have hme : nameAt stb.tab (offsetOf stb nm) = some nm :=
      hname nm (by simp [nodeNames])
    simp only [deflateItem, hg, renameNode, List.cons_append, List.nil_append, parseOne]
    rw [mkInfo_vlen (by omega) (by simp [kindTypedef]) (by omega),
      mkInfo_kind (by omega) (by simp [kindTypedef]) (by omega),
      mkInfo_flag (by omega) (by simp [kindTypedef]) (by omega)]
    simp [hme, kindInt, kindPtr, kindArray, kindStruct, kindUnion, kindEnum,
      kindEnum64, kindTypedef]
  | fwd nm u =>
    rw [hg] at hname
    have hme : nameAt stb.tab (offsetOf stb nm) = some nm :=
      hname nm (by simp [nodeNames])
    simp only [deflateItem, hg, renameNode, List.cons_append, List.nil_append, parseOne]
    rw [mkInfo_vlen (by omega) (by simp [kindFwd]) (boolFlag_le_one u),
      mkInfo_kind (by omega) (by simp [kindFwd]) (boolFlag_le_one u),
      mkInfo_flag (by omega) (by simp [kindFwd]) (boolFlag_le_one u)]
    simp [hme, kindInt, kindPtr, kindArray, kindStruct, kindUnion, kindEnum,
      kindEnum64, kindTypedef, kindFwd, boolFlag_round]
  | enum nm size sg vs =>
    rw [hg] at hname hwfn
    simp only [NodeWf] at hwfn
    obtain ⟨hnm, hsz, hlen, hvals⟩ := hwfn
    have hme : nameAt stb.tab (offsetOf stb nm) = some nm :=
      hname nm (by simp [nodeNames])
    have hvname : ∀ v ∈ vs, nameAt stb.tab (offsetOf stb v.1) = some v.1 := by
      intro v hv
      refine hname v.1 ?_
      simp only [nodeNames, List.mem_cons, List.mem_map]
      exact Or.inr ⟨v, hv, rfl⟩
    by_cases h8 : size = 8
    · subst h8
      have hd : deflateItem g opts φ stb (.inl n) =
          [offsetOf stb nm, mkInfo vs.length kindEnum64 (boolFlag sg), 8] ++
            (vs.map (fun v => [offsetOf stb v.1, v.2 % 2 ^ 32, v.2 / 2 ^ 32])).flatten := by
        simp [deflateItem, hg, hrep]
      rw [hd]
      simp only [hg, renameNode, List.cons_append, List.nil_append,
        List.append_assoc, parseOne]
      rw [mkInfo_vlen (by omega) (by simp [kindEnum64]) (boolFlag_le_one sg),
        mkInfo_kind (by omega) (by simp [kindEnum64]) (boolFlag_le_one sg),
        mkInfo_flag (by omega) (by simp [kindEnum64]) (boolFlag_le_one sg)]
      simp only [hme, kindInt, kindPtr, kindArray, kindStruct, kindUnion, kindEnum,
        kindEnum64]
      simp only [reduceIte]
      rw [parseEnum64Vals_round stb.tab stb vs rest hvname]
      simp [boolFlag_round]
    · have hd : deflateItem g opts φ stb (.inl n) =
          [offsetOf stb nm, mkInfo vs.length kindEnum (boolFlag sg), size] ++
            (vs.map (fun v => [offsetOf stb v.1, v.2])).flatten := by
        simp [deflateItem, hg, hrep, h8]
      rw [hd]
      simp only [hg, renameNode, List.cons_append, List.nil_append,
        List.append_assoc, parseOne]
      rw [mkInfo_vlen (by omega) (by simp [kindEnum]) (boolFlag_le_one sg),
        mkInfo_kind (by omega) (by simp [kindEnum]) (boolFlag_le_one sg),
        mkInfo_flag (by omega) (by simp [kindEnum]) (boolFlag_le_one sg)]
      simp only [hme, kindInt, kindPtr, kindArray, kindStruct, kindUnion, kindEnum]
      simp only [reduceIte]
      rw [parseEnumVals_round stb.tab
        (fun v => [offsetOf stb v.1, v.2]) (fun v => v) vs rest
        (fun v hv => ⟨rfl, hvname v hv⟩)]
      simp [boolFlag_round]



/-- A non-void node always deflates to at least the three header words. -/
theorem deflateItem_cons {g : TypeGraph} {opts : MarshalOptions} {φ : WItem → Nat}
    {stb : StrTab} {n : Nat} (hnv : voidKind g n = false) :
    ∃ a b c ws, deflateItem g opts φ stb (.inl n) = a :: b :: c :: ws := by
  rcases hg : getNode g n with _ | _ | _ | _ | _ | _ | ⟨a, sz, sg, vs⟩ | _ | _
  case void =>
    exact absurd (show voidKind g n = true by simp [voidKind, hg]) (by simp [hnv])
  case enum =>
    simp only [deflateItem, hg]
    split
    · exact ⟨_, _, _, _, rfl⟩
    · split
      · exact ⟨_, _, _, _, rfl⟩
      · exact ⟨_, _, _, _, rfl⟩
  all_goals simp only [deflateItem, hg]
  all_goals exact ⟨_, _, _, _, rfl⟩

/-- Parsing the concatenation of the emitted records recovers the renamed
nodes, one per worklist item. -/
theorem parseTypes_deflate {g : TypeGraph} {opts : MarshalOptions} {φ : WItem → Nat}
    {stb : StrTab} (hrep : opts.replaceEnum64 = false)
    (hz : nameAt stb.tab 0 = some []) :
    ∀ (items : List WItem) (fuel : Nat), items.length ≤ fuel →
      (∀ it ∈ items, ∃ n, it = Sum.inl n ∧ voidKind g n = false ∧
        NodeWf (getNode g n) ∧
        ∀ nm ∈ itemNames g it, nameAt stb.tab (offsetOf stb nm) = some nm) →
      parseTypes stb.tab fuel ((items.map (deflateItem g opts φ stb)).flatten) =
        some (items.map (fun it =>
          renameNode (fun c => φ (.inl c))
            (match it with
              | Sum.inl n => getNode g n
              | Sum.inr _ => .void))) := by
  intro items
  induction items with
  | nil => intro fuel _ _; simp [parseTypes]
  | cons it items ih =>
    intro fuel hfuel hit
    obtain ⟨n, rfl, hnv, hwfn, hnames⟩ := hit it (by simp)
    obtain ⟨f, rfl⟩ : ∃ f, fuel = f + 1 := ⟨fuel - 1, by simp at hfuel; omega⟩
    obtain ⟨a, b, c, ws, hd⟩ := @deflateItem_cons g opts φ stb n hnv
    have hparse := @parseOne_deflate g opts φ stb hrep n hwfn hnames hz hnv
      ((items.map (deflateItem g opts φ stb)).flatten)
    simp only [List.map_cons, List.flatten_cons]
    rw [hd] at hparse ⊢
    simp only [List.cons_append] at hparse ⊢
    rw [parseTypes, hparse]
    dsimp only
    rw [ih f (by simp at hfuel; omega) (fun x hx => hit x (by simp [hx]))]
    rfl

/-! ### Word bounds -/

theorem tab_pos {g : TypeGraph} (q : List WItem) :
    0 < (buildStrTab g q).tab.length := by
  obtain ⟨x, hx⟩ := itemsFold_extend g q strTabInit
  unfold buildStrTab
  rw [hx]
  simp [strTabInit]

theorem offsetOf_lt {s : StrTab} (hwf : StrTabWf s) (hpos : 0 < s.tab.length)
    (nm : BName) : offsetOf s nm < s.tab.length := by
  unfold offsetOf
  cases h : findName nm s.entries with
  | none => simpa using hpos
  | some off =>
    have hmem := findName_mem nm _ off h
    simpa using entryOk_lt (hwf _ hmem)

theorem mkInfo_lt {vlen kind flag : Nat} (hv : vlen < 2 ^ 16) (hk : kind < 32)
    (hf : flag ≤ 1) : mkInfo vlen kind flag < 2 ^ 32 := by
  unfold mkInfo; omega

/-- Every word of a non-void record is below `2^32`. -/
theorem deflateItem_words_lt {g : TypeGraph} {opts : MarshalOptions}
    {φ : WItem → Nat} {stb : StrTab} {n : Nat}
    (hwfn : NodeWf (getNode g n))
    (hwfs : StrTabWf stb) (hpos : 0 < stb.tab.length)
    (htab : stb.tab.length < 2 ^ 32)
    (hφ : ∀ it, φ it < 2 ^ 32) :
    ∀ w ∈ deflateItem g opts φ stb (.inl n), w < 2 ^ 32 := by
  have hoff : ∀ nm, offsetOf stb nm < 2 ^ 32 :=
    fun nm => lt_trans (offsetOf_lt hwfs hpos nm) htab
  intro w hw
  rcases hg : getNode g n with _ | ⟨nm, sz, e⟩ | t | ⟨e, c⟩ | ⟨nm, sz, ms⟩ |
      ⟨nm, sz, ms⟩ | ⟨nm, sz, sg, vs⟩ | ⟨nm, t⟩ | ⟨nm, u⟩ <;>
    rw [hg] at hwfn <;> simp only [NodeWf] at hwfn <;>
    simp only [deflateItem, hg] at hw
  · simp at hw
  · obtain ⟨h1, h2, h3⟩ := hwfn
    simp only [List.mem_cons, List.not_mem_nil, or_false] at hw
    rcases hw with rfl | rfl | rfl | rfl
    · exact hoff nm
    · exact mkInfo_lt (by omega) (by simp [kindInt]) (by omega)
    · omega
    · omega
  · simp only [List.mem_cons, List.not_mem_nil, or_false] at hw
    rcases hw with rfl | rfl | rfl
    · omega
    · exact mkInfo_lt (by omega) (by simp [kindPtr]) (by omega)
    · exact hφ _
  · simp only [List.mem_cons, List.not_mem_nil, or_false] at hw
    rcases hw with rfl | rfl | rfl | rfl | rfl | rfl
    · omega
    · exact mkInfo_lt (by omega) (by simp [kindArray]) (by omega)
    · omega
    · exact hφ _
    · omega
    · exact hwfn
  · obtain ⟨h1, h2, h3, h4⟩ := hwfn
    simp only [List.mem_cons, List.mem_append, List.mem_flatten, List.mem_map,
        List.not_mem_nil, or_false, false_or] at hw
    rcases hw with (rfl | rfl | rfl) | ⟨l, ⟨m, hm, rfl⟩, hl⟩
    · exact hoff nm
    · exact mkInfo_lt (by omega) (by simp [kindStruct]) (by omega)
    · exact h2
    · simp only [List.mem_cons, List.not_mem_nil, or_false] at hl
      rcases hl with rfl | rfl | rfl
      · exact hoff m.mname
      · exact hφ _
      · exact (h4 m hm).2
  · obtain ⟨h1, h2, h3, h4⟩ := hwfn
    simp only [List.mem_cons, List.mem_append, List.mem_flatten, List.mem_map,
        List.not_mem_nil, or_false, false_or] at hw
    rcases hw with (rfl | rfl | rfl) | ⟨l, ⟨m, hm, rfl⟩, hl⟩
    · exact hoff nm
    · exact mkInfo_lt (by omega) (by simp [kindUnion]) (by omega)
    · exact h2
    · simp only [List.mem_cons, List.not_mem_nil, or_false] at hl
      rcases hl with rfl | rfl | rfl
      · exact hoff m.mname
      · exact hφ _
      · exact (h4 m hm).2
  · obtain ⟨h1, h2, h3, h4⟩ := hwfn
    by_cases hre : opts.replaceEnum64 ∧ sz = 8
    · rw [if_pos hre] at hw
      simp only [List.mem_cons, List.mem_append, List.mem_flatten, List.mem_map,
        List.not_mem_nil, or_false, false_or] at hw
      rcases hw with (rfl | rfl | rfl) | ⟨l, ⟨v, hv, rfl⟩, hl⟩
      · exact hoff nm
      · exact mkInfo_lt (by omega) (by simp [kindUnion]) (by omega)
      · exact h2
      · simp only [List.mem_cons, List.not_mem_nil, or_false] at hl
        rcases hl with rfl | rfl | rfl
        · exact hoff v.1
        · exact hφ _
        · omega
    · rw [if_neg hre] at hw
      by_cases h8 : sz = 8
      · rw [if_pos h8] at hw
        simp only [List.mem_cons, List.mem_append, List.mem_flatten, List.mem_map,
          List.not_mem_nil, or_false, false_or] at hw
        rcases hw with (rfl | rfl | rfl) | ⟨l, ⟨v, hv, rfl⟩, hl⟩
        · exact hoff nm
        · exact mkInfo_lt (by omega) (by simp [kindEnum64]) (boolFlag_le_one sg)
        · exact h2
        · simp only [List.mem_cons, List.not_mem_nil, or_false] at hl
          rcases hl with rfl | rfl | rfl
          · exact hoff v.1
          · omega
          · have hb := (h4 v hv).2
            rw [if_pos h8] at hb
            omega
      · rw [if_neg h8] at hw
        simp only [List.mem_cons, List.mem_append, List.mem_flatten, List.mem_map,
          List.not_mem_nil, or_false, false_or] at hw
        rcases hw with (rfl | rfl | rfl) | ⟨l, ⟨v, hv, rfl⟩, hl⟩
        · exact hoff nm
        · exact mkInfo_lt (by omega) (by simp [kindEnum]) (boolFlag_le_one sg)
        · exact h2
        · simp only [List.mem_cons, List.not_mem_nil, or_false] at hl
          rcases hl with rfl | rfl
          · exact hoff v.1
          · have hb := (h4 v hv).2
            rw [if_neg h8] at hb
            omega
  · simp only [List.mem_cons, List.not_mem_nil, or_false] at hw
    rcases hw with rfl | rfl | rfl
    · exact hoff nm
    · exact mkInfo_lt (by omega) (by simp [kindTypedef]) (by omega)
    · exact hφ _
  · simp only [List.mem_cons, List.not_mem_nil, or_false] at hw
    rcases hw with rfl | rfl | rfl
    · exact hoff nm
    · exact mkInfo_lt (by omega) (by simp [kindFwd]) (boolFlag_le_one u)
    · omega



/-! ### Closure loop invariants -/

def itemOkP (g : TypeGraph) : WItem → Prop
  | .inl n => voidKind g n = false
  | .inr n => voidKind g n = false

/-- One step of the worklist fold. -/
def cloF (g : TypeGraph) (q : List WItem) (c : WItem) : List WItem :=
  if isVoidItem g c = true ∨ c ∈ q then q else q ++ [c]

theorem cloStep_eq (g : TypeGraph) (opts : MarshalOptions) (q : List WItem)
    (it : WItem) : cloStep g opts q it = (itemChildren g opts it).foldl (cloF g) q := by
  rfl

theorem cloFold_extends (g : TypeGraph) :
    ∀ (cs : List WItem) (q : List WItem), ∃ ext, cs.foldl (cloF g) q = q ++ ext := by
  intro cs
  induction cs with
  | nil => intro q; exact ⟨[], by simp⟩
  | cons c cs ih =>
    intro q
    by_cases h : isVoidItem g c = true ∨ c ∈ q
    · obtain ⟨ext, hext⟩ := ih q
      refine ⟨ext, ?_⟩
      rw [List.foldl_cons, show cloF g q c = q from by unfold cloF; rw [if_pos h]]
      exact hext
    · obtain ⟨ext, hext⟩ := ih (q ++ [c])
      refine ⟨c :: ext, ?_⟩
      rw [List.foldl_cons,
        show cloF g q c = q ++ [c] from by unfold cloF; rw [if_neg h], hext]
      simp

theorem cloFold_mem (g : TypeGraph) (cs : List WItem) (q : List WItem) {c : WItem}
    (h : c ∈ q) : c ∈ cs.foldl (cloF g) q := by
  obtain ⟨ext, hext⟩ := cloFold_extends g cs q
  rw [hext]
  exact List.mem_append_left _ h

theorem cloFold_handles (g : TypeGraph) :
    ∀ (cs : List WItem) (q : List WItem), ∀ c ∈ cs,
      isVoidItem g c = true ∨ c ∈ cs.foldl (cloF g) q := by
  intro cs
  induction cs with
  | nil => intro q c h; exact absurd h (by simp)
  | cons c0 cs ih =>
    intro q c hc
    rcases List.mem_cons.mp hc with rfl | hc
    · by_cases h : isVoidItem g c = true
      · exact Or.inl h
      · refine Or.inr ?_
        rw [List.foldl_cons]
        refine cloFold_mem g cs _ ?_
        unfold cloF
        by_cases hm : c ∈ q
        · rw [if_pos (Or.inr hm)]; exact hm
        · rw [if_neg (by simp [h, hm])]
          simp
    · exact (ih (cloF g q c0) c hc).imp id id

theorem cloFold_nodup (g : TypeGraph) :
    ∀ (cs : List WItem) (q : List WItem), q.Nodup → (cs.foldl (cloF g) q).Nodup := by
  intro cs
  induction cs with
  | nil => intro q h; exact h
  | cons c cs ih =>
    intro q h
    refine ih (cloF g q c) ?_
    unfold cloF
    by_cases hc : isVoidItem g c = true ∨ c ∈ q
    · rw [if_pos hc]; exact h
    · rw [if_neg hc]
      rw [List.nodup_append]
      exact ⟨h, List.nodup_singleton c, fun x hx hxc => by
        simp only [List.mem_singleton] at hxc
        exact hc (Or.inr (hxc ▸ hx))⟩

theorem cloFold_ok (g : TypeGraph) :
    ∀ (cs : List WItem) (q : List WItem),
      (∀ it ∈ q, itemOkP g it) →
      (∀ c ∈ cs, isVoidItem g c = false → itemOkP g c) →
      ∀ it ∈ cs.foldl (cloF g) q, itemOkP g it := by
  intro cs
  induction cs with
  | nil => intro q hq _ it hit; exact hq it hit
  | cons c cs ih =>
    intro q hq hcs it hit
    refine ih (cloF g q c) ?_ (fun x hx hv => hcs x (by simp [hx]) hv) it hit
    intro x hx
    unfold cloF at hx
    by_cases hc : isVoidItem g c = true ∨ c ∈ q
    · rw [if_pos hc] at hx; exact hq x hx
    · rw [if_neg hc] at hx
      rcases List.mem_append.mp hx with hx | hx
      · exact hq x hx
      · simp only [List.mem_singleton] at hx
        subst hx
        push_neg at hc
        exact hcs x (by simp) (by simpa using hc.1)

/-- Children items produced by `itemChildren` are backed by non-void nodes
whenever they are not themselves void. -/
theorem itemChildren_ok (g : TypeGraph) (opts : MarshalOptions) (it : WItem) :
    ∀ c ∈ itemChildren g opts it, isVoidItem g c = false → itemOkP g c := by
  intro c hc hv
  cases c with
  | inl m => exact (by simpa [isVoidItem] using hv : voidKind g m = false)
  | inr m =>
    cases it with
    | inr k => simp [itemChildren] at hc
    | inl k =>
      cases hg : getNode g k
      case enum a sz sg vs =>
        simp only [itemChildren, hg] at hc
        by_cases hcond : opts.replaceEnum64 = true ∧ sz = 8
        · rw [if_pos hcond] at hc
          simp only [List.mem_singleton, Sum.inr.injEq] at hc
          subst hc
          show voidKind g m = false
          simp [voidKind, hg]
        · rw [if_neg hcond] at hc
          simp at hc
      all_goals simp [itemChildren, hg, childRefs] at hc

theorem items_length_le {g : TypeGraph} (q : List WItem) (hnd : q.Nodup)
    (hok : ∀ it ∈ q, itemOkP g it) : q.length ≤ 2 * g.length := by
  classical
  have hsub : q.toFinset ⊆
      ((Finset.range g.length).image Sum.inl ∪ (Finset.range g.length).image Sum.inr) := by
    intro it hit
    rw [List.mem_toFinset] at hit
    have := hok it hit
    cases it with
    | inl n =>
      have hlt := lt_length_of_not_voidKind (by simpa [itemOkP] using this)
      exact Finset.mem_union_left _ (Finset.mem_image.mpr ⟨n, by simpa using hlt, rfl⟩)
    | inr n =>
      have hlt := lt_length_of_not_voidKind (by simpa [itemOkP] using this)
      exact Finset.mem_union_right _ (Finset.mem_image.mpr ⟨n, by simpa using hlt, rfl⟩)
  have hcard := Finset.card_le_card hsub
  have h1 : q.toFinset.card = q.length := List.toFinset_card_of_nodup hnd
  have h2 : ((Finset.range g.length).image Sum.inl ∪
      (Finset.range g.length).image Sum.inr).card ≤ 2 * g.length := by
    calc ((Finset.range g.length).image Sum.inl ∪
        (Finset.range g.length).image Sum.inr).card
        ≤ ((Finset.range g.length).image Sum.inl).card +
          ((Finset.range g.length).image Sum.inr).card := Finset.card_union_le _ _
      _ ≤ g.length + g.length := by
          have ha : ((Finset.range g.length).image (Sum.inl : Nat → WItem)).card ≤
              (Finset.range g.length).card := Finset.card_image_le
          have hb : ((Finset.range g.length).image (Sum.inr : Nat → WItem)).card ≤
              (Finset.range g.length).card := Finset.card_image_le
          simp only [Finset.card_range] at ha hb
          omega
      _ = 2 * g.length := by omega
  omega


/-- The closure loop succeeds with the supplied fuel and returns a
duplicate-free, valid, child-closed extension of the initial queue. -/
theorem cloLoop_ok (g : TypeGraph) (opts : MarshalOptions) :
    ∀ (fuel : Nat) (q : List WItem) (i : Nat),
      q.Nodup → (∀ it ∈ q, itemOkP g it) →
      (∀ k (hk : k < q.length), k < i →
        ∀ c ∈ itemChildren g opts q[k], isVoidItem g c = true ∨ c ∈ q) →
      2 * g.length ≤ fuel + i →
      ∃ q', cloLoop g opts fuel q i = some q' ∧
        (∃ ext, q' = q ++ ext) ∧ q'.Nodup ∧ (∀ it ∈ q', itemOkP g it) ∧
        (∀ k (hk : k < q'.length),
          ∀ c ∈ itemChildren g opts q'[k], isVoidItem g c = true ∨ c ∈ q') := by
  intro fuel
  induction fuel with
  | zero =>
    intro q i hnd hok hinv hfc
    have hlen : q.length ≤ 2 * g.length := items_length_le q hnd hok
    have hle : q.length ≤ i := by omega
    refine ⟨q, ?_, ⟨[], by simp⟩, hnd, hok, ?_⟩
    · simp [cloLoop, hle]
    · intro k hk c hc
      exact hinv k hk (by omega) c hc
  | succ fuel ih =>
    intro q i hnd hok hinv hfc
    by_cases hlt : i < q.length
    · obtain ⟨ext0, hext0⟩ : ∃ ext, cloStep g opts q q[i] = q ++ ext := by
        rw [cloStep_eq]; exact cloFold_extends g _ q
      have hnd2 : (cloStep g opts q q[i]).Nodup := by
        rw [cloStep_eq]; exact cloFold_nodup g _ q hnd
      have hok2 : ∀ it ∈ cloStep g opts q q[i], itemOkP g it := by
        rw [cloStep_eq]
        exact cloFold_ok g _ q hok (itemChildren_ok g opts _)
      have hhandle : ∀ c ∈ itemChildren g opts q[i],
          isVoidItem g c = true ∨ c ∈ cloStep g opts q q[i] := by
        rw [cloStep_eq]; exact cloFold_handles g _ q
      have hinv2 : ∀ k (hk : k < (cloStep g opts q q[i]).length), k < i + 1 →
          ∀ c ∈ itemChildren g opts (cloStep g opts q q[i])[k],
            isVoidItem g c = true ∨ c ∈ cloStep g opts q q[i] := by
        intro k hk hki c hc
        have hkq : k < q.length := by omega
        have h1 : (cloStep g opts q q[i])[k]? = some ((cloStep g opts q q[i])[k]) :=
          List.getElem?_eq_getElem hk
        have h2 : (cloStep g opts q q[i])[k]? = some (q[k]) := by
          rw [hext0, List.getElem?_append, if_pos hkq, List.getElem?_eq_getElem hkq]
        have hget : (cloStep g opts q q[i])[k] = q[k] := by
          rw [h1] at h2
          exact Option.some.inj h2
        rcases Nat.lt_or_ge k i with hki2 | hki2
        · rw [hget] at hc
          rcases hinv k hkq hki2 c hc with h | h
          · exact Or.inl h
          · exact Or.inr (by rw [hext0]; exact List.mem_append_left _ h)
        · have hik : k = i := by omega
          subst hik
          rw [hget] at hc
          exact hhandle c hc
      obtain ⟨q2, hloop, ⟨ext1, hext1⟩, hnd3, hok3, hclosed3⟩ :=
        ih (cloStep g opts q q[i]) (i + 1) hnd2 hok2 hinv2 (by omega)
      refine ⟨q2, ?_, ⟨ext0 ++ ext1, by rw [hext1, hext0, List.append_assoc]⟩,
        hnd3, hok3, hclosed3⟩
      rw [cloLoop, dif_pos hlt]
      exact hloop
    · refine ⟨q, ?_, ⟨[], by simp⟩, hnd, hok, ?_⟩
      · rw [cloLoop, dif_neg hlt]
      · intro k hk c hc
        exact hinv k hk (by omega) c hc



/-! ### Auxiliary facts for the assembly -/

/-- With ReplaceEnum64 off, the worklist children are exactly the graph
children. -/
theorem itemChildren_eq_of_norep {g : TypeGraph} {opts : MarshalOptions}
    (hrep : opts.replaceEnum64 = false) (m : Nat) :
    itemChildren g opts (.inl m) = (childRefs (getNode g m)).map Sum.inl := by
  cases hg : getNode g m <;> simp [itemChildren, hg, childRefs, hrep]

/-- `cloFold_ok`, for an arbitrary predicate. -/
theorem cloFold_pred (g : TypeGraph) (P : WItem → Prop) :
    ∀ (cs : List WItem) (q : List WItem),
      (∀ it ∈ q, P it) →
      (∀ c ∈ cs, isVoidItem g c = false → P c) →
      ∀ it ∈ cs.foldl (cloF g) q, P it := by
  intro cs
  induction cs with
  | nil => intro q hq _ it hit; exact hq it hit
  | cons c cs ih =>
    intro q hq hcs it hit
    refine ih (cloF g q c) ?_ (fun x hx hv => hcs x (by simp [hx]) hv) it hit
    intro x hx
    unfold cloF at hx
    by_cases hc : isVoidItem g c = true ∨ c ∈ q
    · rw [if_pos hc] at hx; exact hq x hx
    · rw [if_neg hc] at hx
      rcases List.mem_append.mp hx with hx | hx
      · exact hq x hx
      · simp only [List.mem_singleton] at hx
        subst hx
        push_neg at hc
        exact hcs x (by simp) (by simpa using hc.1)

/-- A predicate preserved along worklist children is preserved by the
closure loop. -/
theorem cloLoop_pred (g : TypeGraph) (opts : MarshalOptions) (P : WItem → Prop)
    (hP : ∀ it c, c ∈ itemChildren g opts it → isVoidItem g c = false → P c) :
    ∀ (fuel : Nat) (q : List WItem) (i : Nat), (∀ it ∈ q, P it) →
      ∀ q', cloLoop g opts fuel q i = some q' → ∀ it ∈ q', P it := by
  intro fuel
  induction fuel with
  | zero =>
    intro q i hq q' hq'
    unfold cloLoop at hq'
    by_cases h : q.length ≤ i
    · rw [if_pos h] at hq'
      cases hq'
      exact hq
    · rw [if_neg h] at hq'
      cases hq'
  | succ fuel ih =>
    intro q i hq q' hq'
    rw [cloLoop] at hq'
    by_cases h : i < q.length
    · rw [dif_pos h] at hq'
      refine ih _ (i + 1) ?_ q' hq'
      rw [cloStep_eq]
      exact cloFold_pred g P _ q hq (fun c hc hv => hP _ c hc hv)
    · rw [dif_neg h] at hq'
      cases hq'
      exact hq

/-- With ReplaceEnum64 off, every closure item is a graph node. -/
theorem cloLoop_all_inl {g : TypeGraph} {opts : MarshalOptions}
    (hrep : opts.replaceEnum64 = false) (fuel : Nat) (q0 : List Nat) (q' : List WItem)
    (hq' : cloLoop g opts fuel (q0.map Sum.inl) 0 = some q') :
    ∀ it ∈ q', ∃ n, it = Sum.inl n := by
  refine cloLoop_pred g opts (fun it => ∃ n, it = Sum.inl n) ?_ fuel _ 0 ?_ q' hq'
  · intro it c hc _
    cases it with
    | inr k => simp [itemChildren] at hc
    | inl k =>
      rw [itemChildren_eq_of_norep hrep] at hc
      obtain ⟨n, _, rfl⟩ := List.mem_map.mp hc
      exact ⟨n, rfl⟩
  · intro it hit
    obtain ⟨n, _, rfl⟩ := List.mem_map.mp hit
    exact ⟨n, rfl⟩

theorem itemId_le (g : TypeGraph) (q : List WItem) (it : WItem) :
    itemId g q it ≤ q.length := by
  unfold itemId
  by_cases h1 : isVoidItem g it
  · simp [h1]
  · rw [if_neg h1]
    by_cases h2 : it ∈ q
    · rw [if_pos h2]
      have := List.indexOf_lt_length.mpr h2
      omega
    · simp [h2]

theorem map_len_sum_le {α : Type} (l : List α) (f : α → List Nat) (k : Nat)
    (h : ∀ x ∈ l, (f x).length ≤ k) :
    ((l.map f).map List.length).sum ≤ l.length * k := by
  have hb := List.sum_le_card_nsmul ((l.map f).map List.length) k ?_
  · simpa [Nat.mul_comm] using hb
  · intro x hx
    simp only [List.map_map, List.mem_map] at hx
    obtain ⟨m, hm, rfl⟩ := hx
    exact h m hm

/-- Bound on one record's word count. -/
theorem deflateItem_length_le {g : TypeGraph} {opts : MarshalOptions}
    {φ : WItem → Nat} {stb : StrTab} {n : Nat} (hwfn : NodeWf (getNode g n)) :
    (deflateItem g opts φ stb (.inl n)).length ≤ 3075 := by
  cases hg : getNode g n with
  | void => simp [deflateItem, hg]
  | int nm sz e => simp [deflateItem, hg]
  | ptr t => simp [deflateItem, hg]
  | arr e c => simp [deflateItem, hg]
  | typedef nm t => simp [deflateItem, hg]
  | fwd nm u => simp [deflateItem, hg]
  | struct nm sz ms =>
    rw [hg] at hwfn
    obtain ⟨h1, h2, h3, h4⟩ := hwfn
    have hs := map_len_sum_le ms
      (fun m => [offsetOf stb m.mname, φ (.inl m.mtyp), m.moffset]) 3
      (fun m _ => by simp)
    simp only [deflateItem, hg, List.cons_append, List.nil_append, List.length_cons,
      List.length_flatten]
    omega
  | union nm sz ms =>
    rw [hg] at hwfn
    obtain ⟨h1, h2, h3, h4⟩ := hwfn
    have hs := map_len_sum_le ms
      (fun m => [offsetOf stb m.mname, φ (.inl m.mtyp), m.moffset]) 3
      (fun m _ => by simp)
    simp only [deflateItem, hg, List.cons_append, List.nil_append, List.length_cons,
      List.length_flatten]
    omega
  | enum nm sz sg vs =>
    rw [hg] at hwfn
    obtain ⟨h1, h2, h3, h4⟩ := hwfn
    by_cases hre : opts.replaceEnum64 = true ∧ sz = 8
    · have hs := map_len_sum_le vs (fun v => [offsetOf stb v.1, φ (.inr n), 0]) 3
        (fun v _ => by simp)
      simp only [deflateItem, hg, if_pos hre, List.cons_append, List.nil_append,
        List.length_cons, List.length_flatten]
      omega
    · by_cases h8 : sz = 8
      · have hs := map_len_sum_le vs
          (fun v => [offsetOf stb v.1, v.2 % 2 ^ 32, v.2 / 2 ^ 32]) 3
          (fun v _ => by simp)
        simp only [deflateItem, hg, if_neg hre, if_pos h8, List.cons_append,
          List.nil_append, List.length_cons, List.length_flatten]
        omega
      · have hs := map_len_sum_le vs (fun v => [offsetOf stb v.1, v.2]) 2
          (fun v _ => by simp)
        simp only [deflateItem, hg, if_neg hre, if_neg h8, List.cons_append,
          List.nil_append, List.length_cons, List.length_flatten]
        omega

theorem deflateItem_length_ge {g : TypeGraph} {opts : MarshalOptions}
    {φ : WItem → Nat} {stb : StrTab} {n : Nat} (hnv : voidKind g n = false) :
    3 ≤ (deflateItem g opts φ stb (.inl n)).length := by
  obtain ⟨a, b, c, ws, hd⟩ := @deflateItem_cons g opts φ stb n hnv
  rw [hd]
  simp


/-! ### String table size bound and the offset-zero entry -/

theorem nodeNames_bounds {t : TNode} (h : NodeWf t) :
    (nodeNames t).length ≤ 1025 ∧ ∀ nm ∈ nodeNames t, nm.length ≤ 1024 := by
  cases t with
  | void => simp [nodeNames]
  | int nm sz e =>
    simp only [NodeWf] at h
    refine ⟨by simp [nodeNames], ?_⟩
    intro x hx
    simp only [nodeNames, List.mem_singleton] at hx
    exact hx ▸ h.1.2
  | ptr t => simp [nodeNames]
  | arr e c => simp [nodeNames]
  | struct nm sz ms =>
    simp only [NodeWf] at h
    refine ⟨by simp [nodeNames]; omega, ?_⟩
    intro x hx
    simp only [nodeNames, List.mem_cons, List.mem_map] at hx
    rcases hx with rfl | ⟨m, hm, rfl⟩
    · exact h.1.2
    · exact ((h.2.2.2 m hm).1).2
  | union nm sz ms =>
    simp only [NodeWf] at h
    refine ⟨by simp [nodeNames]; omega, ?_⟩
    intro x hx
    simp only [nodeNames, List.mem_cons, List.mem_map] at hx
    rcases hx with rfl | ⟨m, hm, rfl⟩
    · exact h.1.2
    · exact ((h.2.2.2 m hm).1).2
  | enum nm sz sg vs =>
    simp only [NodeWf] at h
    refine ⟨by simp [nodeNames]; omega, ?_⟩
    intro x hx
    simp only [nodeNames, List.mem_cons, List.mem_map] at hx
    rcases hx with rfl | ⟨v, hv, rfl⟩
    · exact h.1.2
    · exact ((h.2.2.2 v hv).1).2
  | typedef nm t =>
    simp only [NodeWf] at h
    refine ⟨by simp [nodeNames], ?_⟩
    intro x hx
    simp only [nodeNames, List.mem_singleton] at hx
    exact hx ▸ h.2
  | fwd nm u =>
    simp only [NodeWf] at h
    refine ⟨by simp [nodeNames], ?_⟩
    intro x hx
    simp only [nodeNames, List.mem_singleton] at hx
    exact hx ▸ h.2

theorem itemNames_sum_le {g : TypeGraph} (hwf : WFGraph g) (it : WItem) :
    ((itemNames g it).map (fun nm => nm.length + 1)).sum ≤ 1050625 := by
  cases it with
  | inl n =>
    rw [itemNames_inl]
    obtain ⟨hc, he⟩ := nodeNames_bounds (nodeWf_getNode hwf n)
    have := List.sum_le_card_nsmul ((nodeNames (getNode g n)).map (fun nm => nm.length + 1))
      1025 ?_
    · have hlen : ((nodeNames (getNode g n)).map (fun nm => nm.length + 1)).length ≤ 1025 := by
        simpa using hc
      have : ((nodeNames (getNode g n)).map (fun nm => nm.length + 1)).sum ≤ 1025 * 1025 := by
        calc ((nodeNames (getNode g n)).map (fun nm => nm.length + 1)).sum
            ≤ ((nodeNames (getNode g n)).map (fun nm => nm.length + 1)).length • 1025 := this
          _ ≤ 1025 * 1025 := by
              simp only [smul_eq_mul]
              have := hlen
              omega
      omega
    · intro x hx
      simp only [List.mem_map] at hx
      obtain ⟨nm, hnm, rfl⟩ := hx
      have := he nm hnm
      omega
  | inr n =>
    cases hg : getNode g n with
    | enum nm sz sg vs =>
      have h := nodeWf_getNode hwf n
      rw [hg] at h
      simp only [NodeWf] at h
      simp only [itemNames, hg, List.map_cons, List.map_nil, List.sum_cons,
        List.sum_nil, List.length_append]
      have h12 : phSuffix.length = 12 := by decide
      have := h.1.2
      omega
    | void => simp [itemNames, hg]
    | int nm sz e => simp [itemNames, hg]
    | ptr t => simp [itemNames, hg]
    | arr e c => simp [itemNames, hg]
    | struct nm sz ms => simp [itemNames, hg]
    | union nm sz ms => simp [itemNames, hg]
    | typedef nm t => simp [itemNames, hg]
    | fwd nm u => simp [itemNames, hg]

theorem itemsFold_len (g : TypeGraph) :
    ∀ (q : List WItem) (s : StrTab),
      (q.foldl (addItemNames g) s).tab.length ≤
        s.tab.length +
          (q.map (fun it => ((itemNames g it).map (fun nm => nm.length + 1)).sum)).sum := by
  intro q
  induction q with
  | nil => intro s; simp
  | cons it q ih =>
    intro s
    have h1 := foldl_addName_len (itemNames g it) s
    have h2 := ih (addItemNames g s it)
    simp only [List.foldl_cons, List.map_cons, List.sum_cons]
    show (q.foldl (addItemNames g) (addItemNames g s it)).tab.length ≤ _
    have h1 : (addItemNames g s it).tab.length ≤
        s.tab.length + ((itemNames g it).map (fun nm => nm.length + 1)).sum := h1
    omega

theorem buildStrTab_len {g : TypeGraph} (hwf : WFGraph g) (q : List WItem)
    (hq : q.length ≤ 2 * g.length) : (buildStrTab g q).tab.length < 2 ^ 32 := by
  have h1 := itemsFold_len g q strTabInit
  have h2 := List.sum_le_card_nsmul
    (q.map (fun it => ((itemNames g it).map (fun nm => nm.length + 1)).sum)) 1050625 ?_
  · have htab : strTabInit.tab.length = 1 := by decide
    have hg : g.length ≤ 1024 := hwf.1
    have hql : (q.map (fun it => ((itemNames g it).map (fun nm => nm.length + 1)).sum)).length
        = q.length := by simp
    rw [hql] at h2
    simp only [smul_eq_mul] at h2
    unfold buildStrTab
    omega
  · intro x hx
    simp only [List.mem_map] at hx
    obtain ⟨it, hit, rfl⟩ := hx
    exact itemNames_sum_le hwf it

theorem addName_entries_extend (s : StrTab) (nm : BName) :
    ∃ x, (addName s nm).entries = s.entries ++ x := by
  unfold addName
  cases h : findName nm s.entries
  · exact ⟨[(nm, s.tab.length)], rfl⟩
  · exact ⟨[], by simp⟩

theorem foldl_addName_entries_extend :
    ∀ (nms : List BName) (s : StrTab), ∃ x, (nms.foldl addName s).entries = s.entries ++ x := by
  intro nms
  induction nms with
  | nil => intro s; exact ⟨[], by simp⟩
  | cons nm nms ih =>
    intro s
    obtain ⟨x1, h1⟩ := addName_entries_extend s nm
    obtain ⟨x2, h2⟩ := ih (addName s nm)
    exact ⟨x1 ++ x2, by rw [List.foldl_cons, h2, h1, List.append_assoc]⟩

theorem itemsFold_entries_extend (g : TypeGraph) :
    ∀ (q : List WItem) (s : StrTab),
      ∃ x, (q.foldl (addItemNames g) s).entries = s.entries ++ x := by
  intro q
  induction q with
  | nil => intro s; exact ⟨[], by simp⟩
  | cons it q ih =>
    intro s
    obtain ⟨x1, h1⟩ := foldl_addName_entries_extend (itemNames g it) s
    obtain ⟨x2, h2⟩ := ih (addItemNames g s it)
    refine ⟨x1 ++ x2, ?_⟩
    rw [List.foldl_cons, h2]
    show (addItemNames g s it).entries ++ x2 = _
    unfold addItemNames
    rw [h1, List.append_assoc]

/-- The empty name resolves at offset 0 in every built table. -/
theorem buildStrTab_nameAt_zero {g : TypeGraph} (hwf : WFGraph g) (q : List WItem) :
    nameAt (buildStrTab g q).tab 0 = some [] := by
  obtain ⟨x, hx⟩ := itemsFold_entries_extend g q strTabInit
  have hmem : (([], 0) : BName × Nat) ∈ (buildStrTab g q).entries := by
    unfold buildStrTab
    rw [hx]
    exact List.mem_append_left _ (by simp [strTabInit])
  have hok := itemsFold_wf hwf q strTabInit strTabInit_wf _ hmem
  exact nameAt_of_entryOk hok


/-- Loading bytes assembled as a well-formed header, type section and string
section recovers Void followed by the parsed records. -/
theorem loadRawSpec_assembled (be : Bool) (typeBytes tab ws : List Nat)
    (ts : List TNode)
    (h1 : bytesToWords be typeBytes = some ws)
    (hlen : typeBytes.length < 2 ^ 32) (hlen2 : tab.length < 2 ^ 32)
    (h2 : parseTypes tab ws.length ws = some ts) :
    loadRawSpec (headerBytes be typeBytes.length tab.length ++
        (typeBytes ++ tab)) be = some (.void :: ts) := by
  unfold loadRawSpec headerBytes
  simp only [List.append_assoc, List.cons_append, List.nil_append]
  rw [readU16_u16b be 0xEB9F (by decide)]
  simp only [Option.bind_eq_bind, Option.some_bind, readU8]
  rw [readU32_u32b be 24 (by decide)]
  simp only [guard, if_pos trivial, pure, Option.some_bind]
  rw [readU32_u32b be 0 (by decide)]
  simp only [Option.some_bind]
  rw [readU32_u32b be typeBytes.length hlen]
  simp only [Option.some_bind]
  rw [readU32_u32b be typeBytes.length hlen]
  simp only [Option.some_bind]
  rw [readU32_u32b be tab.length hlen2]
  simp only [Option.some_bind]
  rw [if_pos (show 0 + typeBytes.length ≤ (typeBytes ++ tab).length by
    simp [List.length_append])]
  rw [if_pos (show typeBytes.length + tab.length ≤ (typeBytes ++ tab).length by
    simp [List.length_append])]
  simp only [Option.some_bind, List.drop_zero, List.take_left, List.drop_left,
    List.take_length]
  rw [h1]
  simp only [Option.some_bind]
  rw [h2]
  rfl


/-! ### The marshal/load round trip (C1) -/

theorem childRefs_of_voidKind {g : TypeGraph} {m : Nat} (h : voidKind g m = true) :
    childRefs (getNode g m) = [] := by
  unfold voidKind at h
  revert h
  cases getNode g m <;> intro h <;> simp [childRefs] at *

theorem length_le_flatten_length {α : Type} (l : List α) (f : α → List Nat)
    (h : ∀ x ∈ l, 1 ≤ (f x).length) : l.length ≤ ((l.map f).flatten).length := by
  induction l with
  | nil => simp
  | cons x l ih =>
    simp only [List.map_cons, List.flatten_cons, List.length_append, List.length_cons]
    have h1 := ih (fun y hy => h y (by simp [hy]))
    have h2 := h x (by simp)
    omega

/-- The arena the loader recovers from a marshaled closure queue `q`: Void at
ID 0, then each queued node with its child references renumbered to the
queue-assigned TypeIDs. -/
def loadedOf (g : TypeGraph) (q : List WItem) : TypeGraph :=
  TNode.void :: q.map (fun it =>
    renameNode (fun c => itemId g q (Sum.inl c))
      (match it with | Sum.inl n => getNode g n | Sum.inr _ => TNode.void))

/-- C1: loading the bytes produced by marshaling a Builder built from a Type
graph `g` (including cyclic graphs reachable only through Typedef or Pointer
indirection) yields a type graph structurally equal to `g` up to TypeID
renumbering: marshal succeeds, load succeeds, every Builder root keeps its
sequential TypeID, every reachable non-void node of `g` receives a TypeID,
the loaded node at that TypeID is the source node with child references
renumbered by the same injective TypeID map, and Void stays at ID 0. -/
theorem C1_marshal_load_roundtrip (g : TypeGraph) (b : Builder) (opts : MarshalOptions)
    (hwf : WFGraph g) (hrep : opts.replaceEnum64 = false)
    (hnd : b.types.Nodup) (hroots : ∀ n ∈ b.types, voidKind g n = false) :
    ∃ bytes q,
      marshal g b opts = some bytes ∧
      loadRawSpec bytes opts.bigEndian = some (loadedOf g q) ∧
      (∀ k (hk : k < b.types.length),
        Sum.inl b.types[k] ∈ q ∧ itemId g q (Sum.inl b.types[k]) = k + 1) ∧
      (∀ n, Reaches g b.types n → voidKind g n = false → Sum.inl n ∈ q) ∧
      (∀ n, Sum.inl n ∈ q →
        getNode (loadedOf g q) (itemId g q (Sum.inl n)) =
          renameNode (fun c => itemId g q (Sum.inl c)) (getNode g n)) ∧
      (∀ m n, Sum.inl m ∈ q → Sum.inl n ∈ q →
        itemId g q (Sum.inl m) = itemId g q (Sum.inl n) → m = n) := by
  classical
  have hndq : (b.types.map (Sum.inl : Nat → WItem)).Nodup :=
    hnd.map (fun a b h => Sum.inl.inj h)
  have hok0 : ∀ it ∈ b.types.map (Sum.inl : Nat → WItem), itemOkP g it := by
    intro it hit
    obtain ⟨n, hn, rfl⟩ := List.mem_map.mp hit
    simpa [itemOkP] using hroots n hn
  obtain ⟨q, hq, ⟨ext, hext⟩, hqnd, hqok, hclosed⟩ :=
    cloLoop_ok g opts (marshalFuel g b) (b.types.map Sum.inl) 0 hndq hok0
      (fun k hk hk0 _ c => absurd hk0 (Nat.not_lt_zero k))
      (by unfold marshalFuel; omega)
  have hinl := cloLoop_all_inl hrep (marshalFuel g b) b.types q hq
  obtain ⟨hstbwf, hres⟩ := buildStrTab_resolves hwf q
  have hz := buildStrTab_nameAt_zero hwf q
  have hqlen : q.length ≤ 2 * g.length := items_length_le q hqnd hqok
  have hg1024 : g.length ≤ 1024 := hwf.1
  have htab : (buildStrTab g q).tab.length < 2 ^ 32 := buildStrTab_len hwf q hqlen
  have htabpos : 0 < (buildStrTab g q).tab.length := tab_pos q
  have hphi : ∀ it, itemId g q it < 2 ^ 32 := by
    intro it
    have := itemId_le g q it
    omega
  have hnv : ∀ n, Sum.inl n ∈ q → voidKind g n = false := by
    intro n hn
    simpa [itemOkP] using hqok _ hn
  have hwlt : ∀ w ∈ (q.map (deflateItem g opts (itemId g q) (buildStrTab g q))).flatten,
      w < 2 ^ 32 := by
    intro w hw
    rw [List.mem_flatten] at hw
    obtain ⟨l, hl, hwl⟩ := hw
    obtain ⟨it, hit, rfl⟩ := List.mem_map.mp hl
    obtain ⟨n, rfl⟩ := hinl it hit
    exact deflateItem_words_lt (nodeWf_getNode hwf n) hstbwf htabpos htab hphi w hwl
  have hround := bytesToWords_round opts.bigEndian _ hwlt
  have hwlen_le :
      (q.map (deflateItem g opts (itemId g q) (buildStrTab g q))).flatten.length ≤
        q.length * 3075 := by
    rw [List.length_flatten]
    exact map_len_sum_le q _ 3075 (fun it hit => by
      obtain ⟨n, rfl⟩ := hinl it hit
      exact deflateItem_length_le (nodeWf_getNode hwf n))
  have hwlen_ge : q.length ≤
      (q.map (deflateItem g opts (itemId g q) (buildStrTab g q))).flatten.length :=
    length_le_flatten_length q _ (fun it hit => by
      obtain ⟨n, rfl⟩ := hinl it hit
      have h3 := @deflateItem_length_ge g opts (itemId g q)
        (buildStrTab g q) n (hnv n hit)
      omega)
  have hitems : ∀ it ∈ q, ∃ n, it = Sum.inl n ∧ voidKind g n = false ∧
      NodeWf (getNode g n) ∧
      ∀ nm ∈ itemNames g it,
        nameAt (buildStrTab g q).tab (offsetOf (buildStrTab g q) nm) = some nm := by
    intro it hit
    obtain ⟨n, rfl⟩ := hinl it hit
    exact ⟨n, rfl, hnv n hit, nodeWf_getNode hwf n, fun nm hnm => hres _ hit nm hnm⟩
  have hparse := @parseTypes_deflate g opts (itemId g q) (buildStrTab g q) hrep hz q
    (q.map (deflateItem g opts (itemId g q) (buildStrTab g q))).flatten.length
    hwlen_ge hitems
  have htb_len :
      (wordsToBytes opts.bigEndian
        ((q.map (deflateItem g opts (itemId g q) (buildStrTab g q))).flatten)).length
        < 2 ^ 32 := by
    rw [wordsToBytes_length]
    omega
  have hm : marshal g b opts = some
      (headerBytes opts.bigEndian
        (wordsToBytes opts.bigEndian
          ((q.map (deflateItem g opts (itemId g q) (buildStrTab g q))).flatten)).length
        (buildStrTab g q).tab.length ++
       wordsToBytes opts.bigEndian
          ((q.map (deflateItem g opts (itemId g q) (buildStrTab g q))).flatten) ++
       (buildStrTab g q).tab) := by
    unfold marshal
    rw [hq]
  have hload := loadRawSpec_assembled opts.bigEndian
    (wordsToBytes opts.bigEndian
      ((q.map (deflateItem g opts (itemId g q) (buildStrTab g q))).flatten))
    (buildStrTab g q).tab
    ((q.map (deflateItem g opts (itemId g q) (buildStrTab g q))).flatten)
    (q.map (fun it =>
      renameNode (fun c => itemId g q (Sum.inl c))
        (match it with | Sum.inl n => getNode g n | Sum.inr _ => TNode.void)))
    hround htb_len htab hparse
  refine ⟨_, q, hm, ?_, ?_, ?_, ?_, ?_⟩
  · rw [List.append_assoc]
    exact hload
  · intro k hk
    have hkm : k < (b.types.map (Sum.inl : Nat → WItem)).length := by simpa using hk
    have hklt : k < q.length := by
      rw [hext]
      simp only [List.length_append, List.length_map]
      omega
    have hqk : q[k]? = some (Sum.inl b.types[k]) := by
      rw [hext, List.getElem?_append, if_pos hkm, List.getElem?_eq_getElem hkm]
      simp
    have hqe : q[k] = Sum.inl b.types[k] := by
      have h2 := List.getElem?_eq_getElem hklt
      rw [hqk] at h2
      exact (Option.some.inj h2).symm
    have hmem : Sum.inl b.types[k] ∈ q := hqe ▸ List.getElem_mem hklt
    refine ⟨hmem, ?_⟩
    unfold itemId
    rw [if_neg (by simp [isVoidItem, hroots _ (List.getElem_mem hk)]),
      if_pos hmem]
    have hidx : q.indexOf (Sum.inl b.types[k]) = k := by
      rw [← hqe]
      exact List.indexOf_getElem hqnd k hklt
    omega
  · intro n hr
    induction hr with
    | root hmem =>
      intro hnv0
      rw [hext]
      exact List.mem_append_left _ (List.mem_map.mpr ⟨_, hmem, rfl⟩)
    | child hmr hc ih =>
      intro hnv0
      rename_i m c
      have hvm : voidKind g m = false := by
        by_contra hcon
        rw [Bool.not_eq_false] at hcon
        rw [childRefs_of_voidKind hcon] at hc
        exact absurd hc (List.not_mem_nil c)
      have hmq : Sum.inl m ∈ q := ih hvm
      have hkq : q.indexOf (Sum.inl m) < q.length := List.indexOf_lt_length.mpr hmq
      have hcl := hclosed (q.indexOf (Sum.inl m)) hkq
      rw [List.getElem_indexOf hkq] at hcl
      rw [itemChildren_eq_of_norep hrep] at hcl
      have := hcl (Sum.inl c) (List.mem_map.mpr ⟨c, hc, rfl⟩)
      rcases this with hv | hin
      · exact absurd hv (by simp [isVoidItem, hnv0])
      · exact hin
  · intro n hnq
    have hk : q.indexOf (Sum.inl n) < q.length := List.indexOf_lt_length.mpr hnq
    have hid : itemId g q (Sum.inl n) = q.indexOf (Sum.inl n) + 1 := by
      unfold itemId
      rw [if_neg (by simp [isVoidItem, hnv n hnq]), if_pos hnq]
    rw [hid]
    unfold loadedOf getNode
    rw [List.getD_cons_succ]
    rw [List.getD_eq_getElem _ _ (by simpa using hk)]
    rw [List.getElem_map]
    rw [List.getElem_indexOf hk]
  · intro m n hmq hnq heq
    unfold itemId at heq
    rw [if_neg (by simp [isVoidItem, hnv m hmq]), if_pos hmq,
      if_neg (by simp [isVoidItem, hnv n hnq]), if_pos hnq] at heq
    have : q.indexOf (Sum.inl m) = q.indexOf (Sum.inl n) := by omega
    have := (List.indexOf_inj hmq hnq).mp this
    exact Sum.inl.inj this


theorem C1_marshal_load_roundtrip_witness :
    (WFGraph gCyc ∧ ([0] : List Nat).Nodup ∧ ∀ n ∈ ([0] : List Nat), voidKind gCyc n = false) ∧
    ∃ bytes q,
      marshal gCyc ⟨[0]⟩ ⟨false, false⟩ = some bytes ∧
      loadRawSpec bytes false = some (loadedOf gCyc q) ∧
      (∀ k (hk : k < ([0] : List Nat).length),
        Sum.inl (([0] : List Nat)[k]) ∈ q ∧
          itemId gCyc q (Sum.inl (([0] : List Nat)[k])) = k + 1) ∧
      (∀ n, Reaches gCyc [0] n → voidKind gCyc n = false → Sum.inl n ∈ q) ∧
      (∀ n, Sum.inl n ∈ q →
        getNode (loadedOf gCyc q) (itemId gCyc q (Sum.inl n)) =
          renameNode (fun c => itemId gCyc q (Sum.inl c)) (getNode gCyc n)) ∧
      (∀ m n, Sum.inl m ∈ q → Sum.inl n ∈ q →
        itemId gCyc q (Sum.inl m) = itemId gCyc q (Sum.inl n) → m = n) :=
  ⟨⟨by decide, by decide, by decide⟩,
    C1_marshal_load_roundtrip gCyc ⟨[0]⟩ ⟨false, false⟩ (by decide) rfl
      (by decide) (by decide)⟩


/-! ## Fixed-layout codec (sysenc)

Modelled from the spec (§4.5): Go types with their amd64 memory layout
(sizes, alignments, compiler-inserted padding), the packed reference
serialization of `encoding/binary` (native endian, blank fields written as
zeros, no padding between fields), and the direct-memory decision predicate
`supportsDirectMemory` / `unsafeBackingMemory`.  The package itself is
absent from src/ — only its tests (`TestMarshal`, `TestUnmarshal`,
`TestUnsafeBackingMemory`) are present and pin the behaviour. -/

inductive FVis where
  | exported
  | unexported
  | blank
deriving DecidableEq

mutual
inductive GoTy where
  | prim (w : Nat)
  | ptr (t : GoTy)
  | arr (n : Nat) (t : GoTy)
  | strct (fs : Fields)
inductive Fields where
  | nil
  | cons (vis : FVis) (t : GoTy) (rest : Fields)
end

/-- Round `o` up to the next multiple of `a`. -/
def roundUp (o a : Nat) : Nat := (o + a - 1) / a * a

mutual
def alignT : GoTy → Nat
  | .prim w => max w 1
  | .ptr _ => 8
  | .arr _ t => alignT t
  | .strct fs => alignF fs
def alignF : Fields → Nat
  | .nil => 1
  | .cons _ t rest => max (alignT t) (alignF rest)
end

mutual
def sizeT : GoTy → Nat
  | .prim w => w
  | .ptr _ => 8
  | .arr n t => n * sizeT t
  | .strct fs => roundUp (sizeOff fs 0) (alignF fs)
def sizeOff : Fields → Nat → Nat
  | .nil, o => o
  | .cons _ t rest, o => sizeOff rest (roundUp o (alignT t) + sizeT t)
end

mutual
/-- `encoding/binary` dataSize: `none` for unsupported kinds (pointers). -/
def binSizeT : GoTy → Option Nat
  | .prim w => some w
  | .ptr _ => none
  | .arr n t =>
    match binSizeT t with
    | some b => some (n * b)
    | none => none
  | .strct fs => binSizeF fs
def binSizeF : Fields → Option Nat
  | .nil => some 0
  | .cons _ t rest =>
    match binSizeT t, binSizeF rest with
    | some a, some b => some (a + b)
    | _, _ => none
end

mutual
/-- Non-blank unexported fields anywhere in the type (blank padding fields
are allowed). -/
def hasUnexpT : GoTy → Bool
  | .prim _ => false
  | .ptr t => hasUnexpT t
  | .arr _ t => hasUnexpT t
  | .strct fs => hasUnexpF fs
def hasUnexpF : Fields → Bool
  | .nil => false
  | .cons v t rest =>
    match v with
    | .blank => hasUnexpF rest
    | .unexported => true
    | .exported => hasUnexpT t || hasUnexpF rest
end

mutual
/-- A pointer-typed field (or element, or pointee) anywhere in the type. -/
def hasPtrT : GoTy → Bool
  | .prim _ => false
  | .ptr _ => true
  | .arr _ t => hasPtrT t
  | .strct fs => hasPtrF fs
def hasPtrF : Fields → Bool
  | .nil => false
  | .cons _ t rest => hasPtrT t || hasPtrF rest
end

/-- Split memory into `n` consecutive chunks of `s` bytes. -/
def chunks (s : Nat) : Nat → List Nat → List (List Nat)
  | 0, _ => []
  | n + 1, mem => mem.take s :: chunks s n (mem.drop s)

mutual
/-- The packed native-endian serialization `encoding/binary` writes for a
value whose in-memory image is `mem`: fields are written without padding,
blank fields are written as zeros of their packed width. -/
def packT : GoTy → List Nat → List Nat
  | .prim w, mem => mem.take w
  | .ptr _, _ => []
  | .arr n t, mem => ((chunks (sizeT t) n mem).map (fun c => packT t c)).flatten
  | .strct fs, mem => packF fs mem 0
def packF : Fields → List Nat → Nat → List Nat
  | .nil, _, _ => []
  | .cons v t rest, mem, o =>
    (match v with
      | FVis.blank => List.replicate ((binSizeT t).getD 0) 0
      | _ => packT t ((mem.drop (roundUp o (alignT t))).take (sizeT t))) ++
      packF rest mem (roundUp o (alignT t) + sizeT t)
end

mutual
/-- Every byte backing a blank field is zero. -/
def blankOkT : GoTy → List Nat → Bool
  | .prim _, _ => true
  | .ptr _, _ => true
  | .arr n t, mem => (chunks (sizeT t) n mem).all (fun c => blankOkT t c)
  | .strct fs, mem => blankOkF fs mem 0
def blankOkF : Fields → List Nat → Nat → Bool
  | .nil, _, _ => true
  | .cons v t rest, mem, o =>
    (match v with
      | FVis.blank =>
        ((mem.drop (roundUp o (alignT t))).take (sizeT t)).all (fun b => b = 0)
      | _ => blankOkT t ((mem.drop (roundUp o (alignT t))).take (sizeT t))) &&
      blankOkF rest mem (roundUp o (alignT t) + sizeT t)
end


/-- The shapes a value handed to the codec can take: a plain (non-pointer,
non-slice) value, a pointer to a non-slice value, a slice, or a pointer to a
slice — each with the nil-ness the runtime can observe. -/
inductive SysVal where
  | scalar (t : GoTy)
  | ptrV (t : GoTy) (isNil : Bool)
  | sliceV (t : GoTy) (len : Nat) (isNil : Bool)
  | ptrSlice (t : GoTy) (len : Nat) (ptrNil sliceNil : Bool)

/-- Plain-old-data criterion for a single value of type `t`: no non-blank
unexported fields and the packed size equals the in-memory size (no
compiler-inserted padding anywhere, no pointers). -/
def podType (t : GoTy) : Bool :=
  binSizeT t == some (sizeT t) && !hasUnexpT t

/-- The same criterion for a slice of `n` elements of type `t`. -/
def podSlice (t : GoTy) (n : Nat) : Bool :=
  (match binSizeT t with
    | some b => n * b == n * sizeT t
    | none => false) && !hasUnexpT t

/-- Modelled from the spec (§4.5): `supportsDirectMemory(value) -> bool`
(`unsafeBackingMemory` returning a non-nil view).  False for nil values and
whenever the raw memory image is not guaranteed to equal the native
serialized form; true otherwise. -/
def supportsDirectMemory : Option SysVal → Bool
  | none => false
  | some (.scalar t) => podType t
  | some (.ptrV t isNil) => !isNil && podType t
  | some (.sliceV t n isNil) => !isNil && podSlice t n
  | some (.ptrSlice t n pNil sNil) => !pNil && !sNil && podSlice t n

/-- The in-memory byte count of the value's underlying data. -/
def valMemSize : SysVal → Nat
  | .scalar t => sizeT t
  | .ptrV t _ => sizeT t
  | .sliceV t n _ => n * sizeT t
  | .ptrSlice t n _ _ => n * sizeT t

/-- `binary.Size` of the value (pointers are dereferenced first). -/
def valBinSize : SysVal → Option Nat
  | .scalar t => binSizeT t
  | .ptrV t _ => binSizeT t
  | .sliceV t n _ =>
    match binSizeT t with
    | some b => some (n * b)
    | none => none
  | .ptrSlice t n _ _ =>
    match binSizeT t with
    | some b => some (n * b)
    | none => none

/-- Whether the value is nil at any level the codec checks. -/
def valNil : SysVal → Bool
  | .scalar _ => false
  | .ptrV _ isNil => isNil
  | .sliceV _ _ isNil => isNil
  | .ptrSlice _ _ pNil sNil => pNil || sNil

/-- The reference packed serialization of the value from its memory image. -/
def valPack (sv : SysVal) (mem : List Nat) : List Nat :=
  match sv with
  | .scalar t => packT t mem
  | .ptrV t _ => packT t mem
  | .sliceV t n _ => ((chunks (sizeT t) n mem).map (fun c => packT t c)).flatten
  | .ptrSlice t n _ _ => ((chunks (sizeT t) n mem).map (fun c => packT t c)).flatten

/-- Blank-field bytes of the value's memory image are zero. -/
def valBlankOk (sv : SysVal) (mem : List Nat) : Bool :=
  match sv with
  | .scalar t => blankOkT t mem
  | .ptrV t _ => blankOkT t mem
  | .sliceV t n _ => (chunks (sizeT t) n mem).all (fun c => blankOkT t c)
  | .ptrSlice t n _ _ => (chunks (sizeT t) n mem).all (fun c => blankOkT t c)

/-- Modelled from the spec (§4.5): `encode(value, size) -> buffer`.  Fails on
nil values, on types `encoding/binary` cannot size (pointer fields), and when
the packed size disagrees with the requested `size`; otherwise takes the
zero-copy path (returning the raw memory image) when the direct-memory
criterion holds and the image is exactly `size` bytes, and the generic
field-by-field encode (the packed serialization) otherwise. -/
def encode (sv : SysVal) (mem : List Nat) (size : Nat) : Option (List Nat) :=
  if valNil sv then none
  else
    match valBinSize sv with
    | none => none
    | some b =>
      if b = size then
        if supportsDirectMemory (some sv) && valMemSize sv == size then some mem
        else some (valPack sv mem)
      else none


/-! ### Layout lemmas -/

mutual
theorem alignT_pos : ∀ t : GoTy, 0 < alignT t
  | .prim w => Nat.lt_of_lt_of_le Nat.one_pos (le_max_right w 1)
  | .ptr _ => by unfold alignT; omega
  | .arr _ t => by unfold alignT; exact alignT_pos t
  | .strct fs => by unfold alignT; exact alignF_pos fs
theorem alignF_pos : ∀ fs : Fields, 0 < alignF fs
  | .nil => by unfold alignF; omega
  | .cons _ t _ => by
    unfold alignF
    exact Nat.lt_of_lt_of_le (alignT_pos t) (le_max_left _ _)
end

theorem roundUp_ge (o a : Nat) (ha : 0 < a) : o ≤ roundUp o a := by
  unfold roundUp
  have h := @Nat.lt_div_mul_add (o + a - 1) a ha
  omega

mutual
theorem binSizeT_le : ∀ (t : GoTy) (b : Nat), binSizeT t = some b → b ≤ sizeT t
  | .prim w, b, h => by
    unfold binSizeT at h
    unfold sizeT
    have := Option.some.inj h
    omega
  | .ptr t, b, h => by simp [binSizeT] at h
  | .arr n t, b, h => by
    unfold binSizeT at h
    cases hb : binSizeT t with
    | none => rw [hb] at h; exact Option.noConfusion h
    | some bt =>
      rw [hb] at h
      have h1 := binSizeT_le t bt hb
      have h2 := Option.some.inj h
      unfold sizeT
      calc b = n * bt := h2.symm
        _ ≤ n * sizeT t := Nat.mul_le_mul_left n h1
  | .strct fs, b, h => by
    unfold binSizeT at h
    have h2 := binSizeF_le fs 0 b h
    unfold sizeT
    have h3 := roundUp_ge (sizeOff fs 0) (alignF fs) (alignF_pos fs)
    omega
theorem binSizeF_le : ∀ (fs : Fields) (o b : Nat), binSizeF fs = some b → o + b ≤ sizeOff fs o
  | .nil, o, b, h => by
    unfold binSizeF at h
    unfold sizeOff
    have := Option.some.inj h
    omega
  | .cons v t rest, o, b, h => by
    unfold binSizeF at h
    cases ht : binSizeT t with
    | none => rw [ht] at h; exact Option.noConfusion h
    | some bt =>
      cases hr : binSizeF rest with
      | none => rw [ht, hr] at h; exact Option.noConfusion h
      | some br =>
        rw [ht, hr] at h
        have hb := Option.some.inj h
        have h1 := binSizeT_le t bt ht
        have h2 := binSizeF_le rest (roundUp o (alignT t) + sizeT t) br hr
        have h3 := roundUp_ge o (alignT t) (alignT_pos t)
        unfold sizeOff
        omega
end

mutual
theorem hasPtrT_binSize : ∀ t : GoTy, hasPtrT t = true → binSizeT t = none
  | .prim w, h => by simp [hasPtrT] at h
  | .ptr _, _ => rfl
  | .arr n t, h => by
    unfold hasPtrT at h
    unfold binSizeT
    rw [hasPtrT_binSize t h]
  | .strct fs, h => by
    unfold hasPtrT at h
    unfold binSizeT
    exact hasPtrF_binSize fs h
theorem hasPtrF_binSize : ∀ fs : Fields, hasPtrF fs = true → binSizeF fs = none
  | .nil, h => by simp [hasPtrF] at h
  | .cons v t rest, h => by
    unfold hasPtrF at h
    unfold binSizeF
    rcases Bool.or_eq_true _ _ |>.mp h with h1 | h2
    · rw [hasPtrT_binSize t h1]
    · rw [hasPtrF_binSize rest h2]
      cases binSizeT t <;> rfl
end


theorem sizeOff_ge : ∀ (fs : Fields) (o : Nat), o ≤ sizeOff fs o
  | .nil, o => le_refl o
  | .cons v t rest, o => by
    unfold sizeOff
    have h1 := roundUp_ge o (alignT t) (alignT_pos t)
    have h2 := sizeOff_ge rest (roundUp o (alignT t) + sizeT t)
    omega

theorem chunks_count (s : Nat) : ∀ (n : Nat) (mem : List Nat),
    (chunks s n mem).length = n := by
  intro n
  induction n with
  | zero => intro mem; rfl
  | succ n ih =>
    intro mem
    unfold chunks
    simp [ih]

theorem chunks_length_mem (s : Nat) : ∀ (n : Nat) (mem : List Nat),
    n * s ≤ mem.length → ∀ c ∈ chunks s n mem, c.length = s := by
  intro n
  induction n with
  | zero => intro mem _ c hc; exact absurd hc (List.not_mem_nil c)
  | succ n ih =>
    intro mem hlen c hc
    unfold chunks at hc
    rcases List.mem_cons.mp hc with rfl | hc
    · rw [List.length_take]
      have : s ≤ mem.length := by
        have : 1 * s ≤ (n + 1) * s := Nat.mul_le_mul_right s (by omega)
        omega
      omega
    · refine ih (mem.drop s) ?_ c hc
      rw [List.length_drop]
      have : (n + 1) * s = n * s + s := by ring
      omega

theorem chunks_flatten (s : Nat) : ∀ (n : Nat) (mem : List Nat),
    mem.length = n * s → (chunks s n mem).flatten = mem := by
  intro n
  induction n with
  | zero =>
    intro mem hlen
    have : mem = [] := List.eq_nil_of_length_eq_zero (by omega)
    simp [chunks, this]
  | succ n ih =>
    intro mem hlen
    unfold chunks
    rw [List.flatten_cons]
    rw [ih (mem.drop s) (by
      rw [List.length_drop]
      have h2 : (n + 1) * s = n * s + s := Nat.succ_mul n s
      omega)]
    exact List.take_append_drop s mem

mutual
theorem packT_length : ∀ (t : GoTy) (b : Nat) (mem : List Nat),
    binSizeT t = some b → sizeT t ≤ mem.length → (packT t mem).length = b
  | .prim w, b, mem, h1, h2 => by
    unfold binSizeT at h1
    unfold sizeT at h2
    unfold packT
    rw [List.length_take]
    have := Option.some.inj h1
    omega
  | .ptr t, b, mem, h1, _ => by simp [binSizeT] at h1
  | .arr n t, b, mem, h1, h2 => by
    unfold binSizeT at h1
    unfold sizeT at h2
    cases hb : binSizeT t with
    | none => rw [hb] at h1; exact Option.noConfusion h1
    | some bt =>
      rw [hb] at h1
      have hbb := Option.some.inj h1
      unfold packT
      rw [List.length_flatten, List.map_map]
      have hall : ∀ x ∈ (chunks (sizeT t) n mem).map (List.length ∘ fun c => packT t c),
          x = bt := by
        intro x hx
        obtain ⟨c, hc, rfl⟩ := List.mem_map.mp hx
        have hclen := chunks_length_mem (sizeT t) n mem h2 c hc
        exact packT_length t bt c hb (by omega)
      have hsum := List.sum_eq_card_nsmul _ bt hall
      rw [hsum]
      simp only [List.length_map, chunks_count, smul_eq_mul]
      omega
  | .strct fs, b, mem, h1, h2 => by
    unfold binSizeT at h1
    unfold sizeT at h2
    unfold packT
    have hr := roundUp_ge (sizeOff fs 0) (alignF fs) (alignF_pos fs)
    exact packF_length fs 0 b mem h1 (by omega)
theorem packF_length : ∀ (fs : Fields) (o b : Nat) (mem : List Nat),
    binSizeF fs = some b → sizeOff fs o ≤ mem.length → (packF fs mem o).length = b
  | .nil, o, b, mem, h1, h2 => by
    unfold binSizeF at h1
    unfold packF
    have := Option.some.inj h1
    simp [← this]
  | .cons v t rest, o, b, mem, h1, h2 => by
    unfold binSizeF at h1
    cases ht : binSizeT t with
    | none => rw [ht] at h1; exact Option.noConfusion h1
    | some bt =>
      cases hr : binSizeF rest with
      | none => rw [ht, hr] at h1; exact Option.noConfusion h1
      | some br =>
        rw [ht, hr] at h1
        have hb := Option.some.inj h1
        unfold sizeOff at h2
        have hge2 := sizeOff_ge rest (roundUp o (alignT t) + sizeT t)
        unfold packF
        rw [List.length_append]
        have hrest := packF_length rest (roundUp o (alignT t) + sizeT t) br mem hr h2
        have hchunk :
            (match v with
              | FVis.blank => List.replicate ((binSizeT t).getD 0) 0
              | _ => packT t ((mem.drop (roundUp o (alignT t))).take (sizeT t))).length
              = bt := by
          cases v with
          | blank => simp [ht]
          | exported =>
            refine packT_length t bt _ ht ?_
            rw [List.length_take, List.length_drop]
            omega
          | unexported =>
            refine packT_length t bt _ ht ?_
            rw [List.length_take, List.length_drop]
            omega
        rw [hchunk, hrest]
        omega
end


mutual
/-- When the packed size equals the in-memory size (no padding anywhere) and
blank-field bytes are zero, the packed serialization is the memory image. -/
theorem packT_eq_mem : ∀ (t : GoTy) (mem : List Nat),
    binSizeT t = some (sizeT t) → mem.length = sizeT t → blankOkT t mem = true →
    packT t mem = mem
  | .prim w, mem, _, h2, _ => by
    unfold sizeT at h2
    unfold packT
    rw [← h2, List.take_length]
  | .ptr t, mem, h1, _, _ => by simp [binSizeT] at h1
  | .arr n t, mem, h1, h2, h3 => by
    unfold binSizeT at h1
    unfold sizeT at h2 h1
    cases hb : binSizeT t with
    | none => rw [hb] at h1; exact Option.noConfusion h1
    | some bt =>
      rw [hb] at h1
      have hbb := Option.some.inj h1
      unfold packT
      unfold blankOkT at h3
      rw [List.all_eq_true] at h3
      have hch : ∀ c ∈ chunks (sizeT t) n mem, packT t c = c := by
        intro c hc
        have hn : 0 < n := by
          by_contra hn0
          have : n = 0 := by omega
          subst this
          exact absurd hc (List.not_mem_nil c)
        have hbt : bt = sizeT t := by
          have := Nat.eq_of_mul_eq_mul_left hn hbb
          omega
        have hclen := chunks_length_mem (sizeT t) n mem (by omega) c hc
        exact packT_eq_mem t c (hbt ▸ hb) hclen (h3 c hc)
      have hmap : (chunks (sizeT t) n mem).map (fun c => packT t c) =
          chunks (sizeT t) n mem := by
        calc (chunks (sizeT t) n mem).map (fun c => packT t c)
            = (chunks (sizeT t) n mem).map id := List.map_congr_left hch
          _ = chunks (sizeT t) n mem := List.map_id _
      rw [hmap]
      exact chunks_flatten (sizeT t) n mem h2
  | .strct fs, mem, h1, h2, h3 => by
    unfold binSizeT at h1
    unfold sizeT at h1 h2
    unfold packT
    unfold blankOkT at h3
    have hble := binSizeF_le fs 0 _ h1
    have hr := roundUp_ge (sizeOff fs 0) (alignF fs) (alignF_pos fs)
    have hsz : roundUp (sizeOff fs 0) (alignF fs) = sizeOff fs 0 := by omega
    rw [hsz] at h1 h2
    have := packF_eq_mem fs mem 0 (sizeOff fs 0) h1 (by omega) (by omega) h3
    rw [this, List.drop_zero, ← h2, List.take_length]
theorem packF_eq_mem : ∀ (fs : Fields) (mem : List Nat) (o b : Nat),
    binSizeF fs = some b → sizeOff fs o = o + b → o + b ≤ mem.length →
    blankOkF fs mem o = true →
    packF fs mem o = (mem.drop o).take b
  | .nil, mem, o, b, h1, _, _, _ => by
    unfold binSizeF at h1
    have hb := Option.some.inj h1
    unfold packF
    simp [← hb]
  | .cons v t rest, mem, o, b, h1, h2, h3, h4 => by
    unfold binSizeF at h1
    cases ht : binSizeT t with
    | none => rw [ht] at h1; exact Option.noConfusion h1
    | some bt =>
      cases hrb : binSizeF rest with
      | none => rw [ht, hrb] at h1; exact Option.noConfusion h1
      | some br =>
        rw [ht, hrb] at h1
        have hb := Option.some.inj h1
        unfold sizeOff at h2
        have hge1 := roundUp_ge o (alignT t) (alignT_pos t)
        have hge2 := sizeOff_ge rest (roundUp o (alignT t) + sizeT t)
        have h2r := binSizeF_le rest (roundUp o (alignT t) + sizeT t) br hrb
        have h1t := binSizeT_le t bt ht
        have ho : roundUp o (alignT t) = o := by omega
        have hbt : bt = sizeT t := by omega
        have hrest_off : sizeOff rest (o + sizeT t) = (o + sizeT t) + br := by
          rw [← ho]
          omega
        unfold packF
        unfold blankOkF at h4
        rw [ho] at h4 ⊢
        rw [Bool.and_eq_true] at h4
        have hchunklen : ((mem.drop o).take (sizeT t)).length = sizeT t := by
          rw [List.length_take, List.length_drop]
          omega
        have hrest := packF_eq_mem rest mem (o + sizeT t) br hrb hrest_off
          (by omega) h4.2
        have hsplit : (mem.drop o).take b =
            (mem.drop o).take (sizeT t) ++ (mem.drop (o + sizeT t)).take br := by
          have hdd : mem.drop (o + sizeT t) = (mem.drop o).drop (sizeT t) := by
            rw [List.drop_drop]
          rw [hdd, ← List.take_add]
          have hbe : b = sizeT t + br := by omega
          rw [hbe]
        have hblank : v = FVis.blank →
            List.replicate ((binSizeT t).getD 0) 0 = (mem.drop o).take (sizeT t) := by
          intro hv
          rw [hv] at h4
          simp only [ht, Option.getD_some]
          rw [hbt]
          have hz := h4.1
          simp only [List.all_eq_true, decide_eq_true_eq] at hz
          symm
          rw [List.eq_replicate]
          exact ⟨hchunklen, fun x hx => hz x hx⟩
        have hpackt : v ≠ FVis.blank →
            packT t ((mem.drop o).take (sizeT t)) = (mem.drop o).take (sizeT t) := by
          intro hv
          refine packT_eq_mem t _ (hbt ▸ ht) hchunklen ?_
          cases v with
          | blank => exact absurd rfl hv
          | exported => exact h4.1
          | unexported => exact h4.1
        cases v with
        | blank =>
          rw [hrest, hsplit]
          rw [hblank rfl]
        | exported =>
          rw [hrest, hsplit]
          rw [hpackt (by simp)]
        | unexported =>
          rw [hrest, hsplit]
          rw [hpackt (by simp)]
end


theorem valPack_eq_arr (t : GoTy) (n : Nat) (mem : List Nat) :
    ((chunks (sizeT t) n mem).map (fun c => packT t c)).flatten =
      packT (.arr n t) mem := by
  simp only [packT]

theorem slice_pack_eq (t : GoTy) (n : Nat) (mem : List Nat) (bt : Nat)
    (hbt : binSizeT t = some bt) (hpod : n * bt = n * sizeT t)
    (hmem : mem.length = n * sizeT t)
    (hbz : (chunks (sizeT t) n mem).all (fun c => blankOkT t c) = true) :
    ((chunks (sizeT t) n mem).map (fun c => packT t c)).flatten = mem := by
  rw [valPack_eq_arr]
  refine packT_eq_mem (.arr n t) mem ?_ ?_ ?_
  · show binSizeT (.arr n t) = some (sizeT (.arr n t))
    unfold binSizeT sizeT
    rw [hbt]
    show some (n * bt) = some (n * sizeT t)
    rw [hpod]
  · exact hmem
  · simpa [blankOkT] using hbz

theorem slice_pack_length (t : GoTy) (n : Nat) (mem : List Nat) (bt : Nat)
    (hbt : binSizeT t = some bt) (hmem : n * sizeT t ≤ mem.length) :
    (((chunks (sizeT t) n mem).map (fun c => packT t c)).flatten).length
      = n * bt := by
  rw [valPack_eq_arr]
  refine packT_length (.arr n t) (n * bt) mem ?_ ?_
  · show binSizeT (.arr n t) = some (n * bt)
    unfold binSizeT
    rw [hbt]
  · exact hmem

/-- C9: every value accepted by the fixed-layout codec's encode produces
exactly `size` bytes, byte-for-byte equal to the reference native-endian
binary serialization of the value (the packed `encoding/binary` image).  The
hypotheses say the memory image has the type's in-memory size and that
blank-field bytes are zero, as they are for any value the runtime
constructs. -/
theorem C9_encode_native_layout (sv : SysVal) (mem : List Nat) (size : Nat)
    (out : List Nat)
    (hmem : mem.length = valMemSize sv)
    (hbz : valBlankOk sv mem = true)
    (henc : encode sv mem size = some out) :
    out.length = size ∧ out = valPack sv mem := by
  unfold encode at henc
  by_cases hnil : valNil sv = true
  · rw [if_pos hnil] at henc
    exact Option.noConfusion henc
  rw [if_neg hnil] at henc
  cases hvb : valBinSize sv with
  | none => rw [hvb] at henc; exact Option.noConfusion henc
  | some b =>
    rw [hvb] at henc
    replace henc : (if b = size then
        (if (supportsDirectMemory (some sv) && valMemSize sv == size) = true
          then some mem else some (valPack sv mem)) else none) = some out := henc
    by_cases hbs : b = size
    · rw [if_pos hbs] at henc
      by_cases hdir : (supportsDirectMemory (some sv) && valMemSize sv == size) = true
      · rw [if_pos hdir] at henc
        have hout := Option.some.inj henc
        rw [Bool.and_eq_true, beq_iff_eq] at hdir
        obtain ⟨hsup, hms⟩ := hdir
        subst hout
        refine ⟨by omega, ?_⟩
        cases sv with
        | scalar t =>
          have hps : podType t = true := by
            simpa [supportsDirectMemory] using hsup
          unfold podType at hps
          rw [Bool.and_eq_true, beq_iff_eq] at hps
          exact (packT_eq_mem t mem hps.1 hmem hbz).symm
        | ptrV t isNil =>
          have hps : podType t = true := by
            simp only [supportsDirectMemory, Bool.and_eq_true] at hsup
            exact hsup.2
          unfold podType at hps
          rw [Bool.and_eq_true, beq_iff_eq] at hps
          exact (packT_eq_mem t mem hps.1 hmem hbz).symm
        | sliceV t n isNil =>
          have hps : podSlice t n = true := by
            simp only [supportsDirectMemory, Bool.and_eq_true] at hsup
            first
            | exact hsup
            | exact hsup.2
            | exact hsup.2.2
          cases hbt : binSizeT t with
          | none =>
            unfold podSlice at hps
            rw [hbt] at hps
            simp at hps
          | some bt =>
            unfold podSlice at hps
            rw [hbt] at hps
            replace hps : ((n * bt == n * sizeT t) && !hasUnexpT t) = true := hps
            rw [Bool.and_eq_true, beq_iff_eq] at hps
            simp only [valPack]
            refine (slice_pack_eq t n mem bt hbt hps.1 ?_ ?_).symm
            · simpa [valMemSize] using hmem
            · simpa [valBlankOk] using hbz
        | ptrSlice t n pNil sNil =>
          have hps : podSlice t n = true := by
            simp only [supportsDirectMemory, Bool.and_eq_true] at hsup
            first
            | exact hsup
            | exact hsup.2
            | exact hsup.2.2
          cases hbt : binSizeT t with
          | none =>
            unfold podSlice at hps
            rw [hbt] at hps
            simp at hps
          | some bt =>
            unfold podSlice at hps
            rw [hbt] at hps
            replace hps : ((n * bt == n * sizeT t) && !hasUnexpT t) = true := hps
            rw [Bool.and_eq_true, beq_iff_eq] at hps
            simp only [valPack]
            refine (slice_pack_eq t n mem bt hbt hps.1 ?_ ?_).symm
            · simpa [valMemSize] using hmem
            · simpa [valBlankOk] using hbz
      · rw [if_neg hdir] at henc
        have hout := Option.some.inj henc
        subst hout
        refine ⟨?_, rfl⟩
        subst hbs
        cases sv with
        | scalar t =>
          simp only [valPack]
          exact packT_length t b mem (by simpa [valBinSize] using hvb)
            (by simp only [valMemSize] at hmem; omega)
        | ptrV t isNil =>
          simp only [valPack]
          exact packT_length t b mem (by simpa [valBinSize] using hvb)
            (by simp only [valMemSize] at hmem; omega)
        | sliceV t n isNil =>
          simp only [valPack]
          simp only [valBinSize] at hvb
          cases hbt : binSizeT t with
          | none => rw [hbt] at hvb; exact Option.noConfusion hvb
          | some bt =>
            rw [hbt] at hvb
            replace hvb : some (n * bt) = some b := hvb
            have hb := Option.some.inj hvb
            rw [slice_pack_length t n mem bt hbt
              (by simp only [valMemSize] at hmem; omega)]
            exact hb
        | ptrSlice t n pNil sNil =>
          simp only [valPack]
          simp only [valBinSize] at hvb
          cases hbt : binSizeT t with
          | none => rw [hbt] at hvb; exact Option.noConfusion hvb
          | some bt =>
            rw [hbt] at hvb
            replace hvb : some (n * bt) = some b := hvb
            have hb := Option.some.inj hvb
            rw [slice_pack_length t n mem bt hbt
              (by simp only [valMemSize] at hmem; omega)]
            exact hb
    · rw [if_neg hbs] at henc
      exact Option.noConfusion henc


/-! ### The pinned test types -/

/-- `struc{A uint64; B uint32}` — 4 bytes of trailing padding. -/
def strucTy : GoTy := .strct (.cons .exported (.prim 8) (.cons .exported (.prim 4) .nil))

/-- `struct{B uint32; A uint64}` — 4 bytes of interspersed padding. -/
def reorderTy : GoTy := .strct (.cons .exported (.prim 4) (.cons .exported (.prim 8) .nil))

/-- `struct{A *uint64}` — a pointer-typed field. -/
def ptrFieldTy : GoTy := .strct (.cons .exported (.ptr (.prim 8)) .nil)

/-- `struct{a uint64}` — a named unexported field. -/
def unexpTy : GoTy := .strct (.cons .unexported (.prim 8) .nil)

/-- The fields of `struct{A, B uint16; C uint32}` — padding-free exported
primitives. -/
def abcFs : Fields :=
  .cons .exported (.prim 2) (.cons .exported (.prim 2) (.cons .exported (.prim 4) .nil))

/-- `explicitPad` = `struct{_ uint32}` from the sysenc testcases. -/
def explicitPadTy : GoTy := .strct (.cons .blank (.prim 4) .nil)

/-- `struct{_ uint64}` from `TestUnsafeBackingMemory`. -/
def explicitPad64Ty : GoTy := .strct (.cons .blank (.prim 8) .nil)

/-- Compiler-inserted padding: the packed size is strictly below the
in-memory size. -/
def hasGap (t : GoTy) : Bool :=
  match binSizeT t with
  | some b => decide (b < sizeT t)
  | none => false

theorem podType_false_of_ne {t : GoTy} (h : binSizeT t ≠ some (sizeT t)) :
    podType t = false := by
  unfold podType
  rw [beq_eq_false_iff_ne.mpr h, Bool.false_and]

theorem podSlice_false_of_none {t : GoTy} {n : Nat} (h : binSizeT t = none) :
    podSlice t n = false := by
  unfold podSlice
  rw [h]
  simp

theorem podSlice_false_of_ne {t : GoTy} {n bt : Nat} (h : binSizeT t = some bt)
    (hne : n * bt ≠ n * sizeT t) : podSlice t n = false := by
  unfold podSlice
  rw [h]
  show ((n * bt == n * sizeT t) && !hasUnexpT t) = false
  rw [beq_eq_false_iff_ne.mpr hne, Bool.false_and]

theorem podType_false_of_unexp {t : GoTy} (h : hasUnexpT t = true) :
    podType t = false := by
  unfold podType
  rw [h]
  simp

theorem podSlice_false_of_unexp {t : GoTy} {n : Nat} (h : hasUnexpT t = true) :
    podSlice t n = false := by
  unfold podSlice
  rw [h]
  simp

theorem hasGap_elim {t : GoTy} (h : hasGap t = true) :
    ∃ b, binSizeT t = some b ∧ b < sizeT t := by
  unfold hasGap at h
  cases hb : binSizeT t with
  | none => rw [hb] at h; exact Bool.noConfusion h
  | some b =>
    rw [hb] at h
    exact ⟨b, rfl, of_decide_eq_true h⟩

/-- C8: `supportsDirectMemory` (`unsafeBackingMemory` returning a usable
view) is false for every value whose type contains a pointer-typed field,
every value with trailing or interspersed compiler-inserted padding, every
nonempty slice or array of a padded element type, every value with named
unexported fields, and every nil value; it is true for primitive integers,
fixed arrays of primitives, byte slices, and padding-free structs of
exported primitive fields. -/
theorem C8_supports_direct_memory :
    (supportsDirectMemory none = false) ∧
    (∀ (t : GoTy) (n : Nat) (p s : Bool),
      supportsDirectMemory (some (.ptrV t true)) = false ∧
      supportsDirectMemory (some (.sliceV t n true)) = false ∧
      supportsDirectMemory (some (.ptrSlice t n true s)) = false ∧
      supportsDirectMemory (some (.ptrSlice t n p true)) = false) ∧
    (∀ t : GoTy, hasPtrT t = true → ∀ (n : Nat) (b p s : Bool),
      supportsDirectMemory (some (.scalar t)) = false ∧
      supportsDirectMemory (some (.ptrV t b)) = false ∧
      supportsDirectMemory (some (.sliceV t n b)) = false ∧
      supportsDirectMemory (some (.ptrSlice t n p s)) = false) ∧
    (∀ t : GoTy, hasGap t = true → ∀ (n : Nat) (b p s : Bool),
      supportsDirectMemory (some (.scalar t)) = false ∧
      supportsDirectMemory (some (.ptrV t b)) = false ∧
      supportsDirectMemory (some (.sliceV t (n + 1) b)) = false ∧
      supportsDirectMemory (some (.ptrSlice t (n + 1) p s)) = false ∧
      supportsDirectMemory (some (.ptrV (.arr (n + 1) t) b)) = false) ∧
    (∀ t : GoTy, hasUnexpT t = true → ∀ (n : Nat) (b : Bool),
      supportsDirectMemory (some (.scalar t)) = false ∧
      supportsDirectMemory (some (.ptrV t b)) = false ∧
      supportsDirectMemory (some (.sliceV t n b)) = false) ∧
    (∀ (w n : Nat),
      supportsDirectMemory (some (.scalar (.prim w))) = true ∧
      supportsDirectMemory (some (.ptrV (.prim w) false)) = true ∧
      supportsDirectMemory (some (.ptrV (.arr n (.prim w)) false)) = true ∧
      supportsDirectMemory (some (.sliceV (.prim 1) n false)) = true) ∧
    (∀ fs : Fields, hasUnexpF fs = false → binSizeF fs = some (sizeT (.strct fs)) →
      supportsDirectMemory (some (.ptrV (.strct fs) false)) = true) := by
  refine ⟨rfl, ?_, ?_, ?_, ?_, ?_, ?_⟩
  · intro t n p s
    refine ⟨?_, ?_, ?_, ?_⟩ <;> simp [supportsDirectMemory]
  · intro t h n b p s
    have hnone := hasPtrT_binSize t h
    have h1 : podType t = false := podType_false_of_ne (by rw [hnone]; simp)
    have h2 : podSlice t n = false := podSlice_false_of_none hnone
    refine ⟨?_, ?_, ?_, ?_⟩ <;> simp [supportsDirectMemory, h1, h2]
  · intro t h n b p s
    obtain ⟨bt, hbt, hlt⟩ := hasGap_elim h
    have h1 : podType t = false := podType_false_of_ne (by rw [hbt]; simp; omega)
    have hmul : (n + 1) * bt ≠ (n + 1) * sizeT t :=
      Nat.ne_of_lt (mul_lt_mul_of_pos_left hlt (by omega))
    have h2 : podSlice t (n + 1) = false := podSlice_false_of_ne hbt hmul
    have h3 : podType (.arr (n + 1) t) = false := by
      refine podType_false_of_ne ?_
      show (match binSizeT t with
        | some b => some ((n + 1) * b)
        | none => none) ≠ some (sizeT (.arr (n + 1) t))
      rw [hbt]
      show some ((n + 1) * bt) ≠ some (sizeT (.arr (n + 1) t))
      unfold sizeT
      intro hc
      exact hmul (Option.some.inj hc)
    refine ⟨?_, ?_, ?_, ?_, ?_⟩ <;> simp [supportsDirectMemory, h1, h2, h3]
  · intro t h n b
    have h1 : podType t = false := podType_false_of_unexp h
    have h2 : podSlice t n = false := podSlice_false_of_unexp h
    refine ⟨?_, ?_, ?_⟩ <;> simp [supportsDirectMemory, h1, h2]
  · intro w n
    refine ⟨?_, ?_, ?_, ?_⟩ <;>
      simp [supportsDirectMemory, podType, podSlice, binSizeT, sizeT, hasUnexpT]
  · intro fs h1 h2
    have hp : podType (.strct fs) = true := by
      unfold podType
      rw [show binSizeT (.strct fs) = binSizeF fs from rfl, h2]
      rw [show hasUnexpT (.strct fs) = hasUnexpF fs from rfl, h1]
      simp
    simp [supportsDirectMemory, hp]


theorem C8_supports_direct_memory_witness :
    (hasPtrT ptrFieldTy = true ∧
      supportsDirectMemory (some (.ptrV ptrFieldTy false)) = false) ∧
    (hasGap strucTy = true ∧
      supportsDirectMemory (some (.ptrV strucTy false)) = false ∧
      supportsDirectMemory (some (.sliceV strucTy 2 false)) = false ∧
      supportsDirectMemory (some (.ptrV (.arr 2 strucTy) false)) = false) ∧
    (hasGap reorderTy = true ∧
      supportsDirectMemory (some (.ptrV reorderTy false)) = false) ∧
    (hasUnexpT unexpTy = true ∧
      supportsDirectMemory (some (.ptrV unexpTy false)) = false) ∧
    (hasUnexpF abcFs = false ∧ binSizeF abcFs = some (sizeT (.strct abcFs)) ∧
      supportsDirectMemory (some (.ptrV (.strct abcFs) false)) = true) :=
  ⟨⟨by decide,
      (C8_supports_direct_memory.2.2.1 ptrFieldTy (by decide) 0 false false false).2.1⟩,
    ⟨by decide,
      (C8_supports_direct_memory.2.2.2.1 strucTy (by decide) 1 false false false).2.1,
      (C8_supports_direct_memory.2.2.2.1 strucTy (by decide) 1 false false false).2.2.1,
      (C8_supports_direct_memory.2.2.2.1 strucTy (by decide) 1 false false false).2.2.2.2⟩,
    ⟨by decide,
      (C8_supports_direct_memory.2.2.2.1 reorderTy (by decide) 0 false false false).2.1⟩,
    ⟨by decide,
      (C8_supports_direct_memory.2.2.2.2.1 unexpTy (by decide) 0 false).2.1⟩,
    ⟨by decide, by decide,
      C8_supports_direct_memory.2.2.2.2.2.2 abcFs (by decide) (by decide)⟩⟩

/-- C10, counterexample: the claim says a slice or array of explicitly
padded structs such as `explicitPad` = `struct{_ uint32}` is rejected by the
direct-memory path; in the modelled codec their packed size equals their
memory size, so they are accepted exactly like the struct itself. -/
theorem C10_explicit_pad_slice_cex :
    supportsDirectMemory (some (.ptrSlice explicitPadTy 1 false false)) = true ∧
    supportsDirectMemory (some (.sliceV explicitPadTy 2 false)) = true ∧
    supportsDirectMemory (some (.ptrV (.arr 2 explicitPadTy) false)) = true := by
  decide

/-- C10 (amended): a struct fully covered by explicitly declared blank
fields, such as `struct{_ uint64}` or `struct{_ uint32}`, is accepted by the
zero-copy direct-memory path even though its fields are unexported padding —
and so are slices and arrays of such structs, since their packed size equals
their memory size; what the path rejects is any value whose (element) type
carries compiler-inserted implicit padding. -/
theorem C10_explicit_pad_direct_memory :
    (supportsDirectMemory (some (.ptrV explicitPad64Ty false)) = true) ∧
    (supportsDirectMemory (some (.ptrV explicitPadTy false)) = true) ∧
    (∀ n, supportsDirectMemory (some (.sliceV explicitPadTy n false)) = true) ∧
    (∀ n, supportsDirectMemory (some (.ptrSlice explicitPadTy n false false)) = true) ∧
    (∀ n, supportsDirectMemory (some (.ptrV (.arr n explicitPadTy) false)) = true) ∧
    (∀ t : GoTy, hasGap t = true → ∀ (n : Nat) (b p s : Bool),
      supportsDirectMemory (some (.ptrV t b)) = false ∧
      supportsDirectMemory (some (.sliceV t (n + 1) b)) = false ∧
      supportsDirectMemory (some (.ptrSlice t (n + 1) p s)) = false ∧
      supportsDirectMemory (some (.ptrV (.arr (n + 1) t) b)) = false) := by
  have hb : binSizeT explicitPadTy = some 4 := by decide
  have hs : sizeT explicitPadTy = 4 := by decide
  have hu : hasUnexpT explicitPadTy = false := by decide
  refine ⟨by decide, by decide, ?_, ?_, ?_, ?_⟩
  · intro n
    simp [supportsDirectMemory, podSlice, hb, hs, hu]
  · intro n
    simp [supportsDirectMemory, podSlice, hb, hs, hu]
  · intro n
    have hba : binSizeT (.arr n explicitPadTy) = some (n * 4) := by
      show (match binSizeT explicitPadTy with
        | some b => some (n * b)
        | none => none) = some (n * 4)
      rw [hb]
    have hsa : sizeT (.arr n explicitPadTy) = n * 4 := by
      show n * sizeT explicitPadTy = n * 4
      rw [hs]
    have hua : hasUnexpT (.arr n explicitPadTy) = false := hu
    simp [supportsDirectMemory, podType, hba, hsa, hua]
  · intro t h n b p s
    obtain ⟨bt, hbt, hlt⟩ := hasGap_elim h
    have h1 : podType t = false := podType_false_of_ne (by rw [hbt]; simp; omega)
    have hmul : (n + 1) * bt ≠ (n + 1) * sizeT t :=
      Nat.ne_of_lt (mul_lt_mul_of_pos_left hlt (by omega))
    have h2 : podSlice t (n + 1) = false := podSlice_false_of_ne hbt hmul
    have h3 : podType (.arr (n + 1) t) = false := by
      refine podType_false_of_ne ?_
      show (match binSizeT t with
        | some b => some ((n + 1) * b)
        | none => none) ≠ some (sizeT (.arr (n + 1) t))
      rw [hbt]
      show some ((n + 1) * bt) ≠ some (sizeT (.arr (n + 1) t))
      unfold sizeT
      intro hc
      exact hmul (Option.some.inj hc)
    refine ⟨?_, ?_, ?_, ?_⟩ <;> simp [supportsDirectMemory, h1, h2, h3]

theorem C10_explicit_pad_direct_memory_witness :
    hasGap strucTy = true ∧
    supportsDirectMemory (some (.sliceV strucTy 1 false)) = false :=
  ⟨by decide,
    (C10_explicit_pad_direct_memory.2.2.2.2.2 strucTy (by decide) 0 false
      false false).2.1⟩

def svStruc : SysVal := .scalar strucTy

def memStruc : List Nat := List.replicate 12 255 ++ List.replicate 4 0

theorem C9_encode_native_layout_witness :
    (memStruc.length = valMemSize svStruc ∧ valBlankOk svStruc memStruc = true ∧
      encode svStruc memStruc 12 = some (List.replicate 12 255)) ∧
    ((List.replicate 12 255).length = 12 ∧
      List.replicate 12 255 = valPack svStruc memStruc) :=
  ⟨⟨by decide, by decide, by decide⟩,
    C9_encode_native_layout svStruc memStruc 12 (List.replicate 12 255)
      (by decide) (by decide) (by decide)⟩

end BtfModel
